import Mathlib

/-!
Verification of the mini-LSM core: the prefix-compressed block format
(builder and iterator, `src/block/builder.rs` and `src/block/iterator.rs`)
and the leveled compaction controller (`src/compact/leveled.rs`).

Byte buffers are modelled as `List Nat` (each element a byte value);
machine-integer casts (`as u16`) are modelled with explicit `% 65536`,
and the big-endian `put_u16`/`put_u64`/`get_u16`/`get_u64` of the `bytes`
crate are modelled byte for byte.  Fatal conditions (assertion failures,
`unwrap` on `None`, out-of-range indexing) are modelled by `Option`
results, `none` standing for a panic.
-/

/-- Byte lookup in a buffer.  All reads modelled here are in range for the
well-formed blocks the theorems speak about; past-the-end reads (which would
panic in the source) return 0 and are never relied upon. -/
def byteAt (l : List Nat) (i : Nat) : Nat := l.getD i 0

/-- Big-endian 2-byte encoding of `n`, truncated to `n % 65536`
(models `put_u16(n as u16)`). -/
def putU16 (n : Nat) : List Nat := [n / 256 % 256, n % 256]

/-- Big-endian 8-byte encoding of `n`, truncated to `n % 2^64`
(models `put_u64`). -/
def putU64 (n : Nat) : List Nat :=
  [n / 72057594037927936 % 256, n / 281474976710656 % 256,
   n / 1099511627776 % 256, n / 4294967296 % 256,
   n / 16777216 % 256, n / 65536 % 256, n / 256 % 256, n % 256]

/-- Big-endian 2-byte read (models `get_u16`). -/
def getU16 (l : List Nat) : Nat := byteAt l 0 * 256 + byteAt l 1

/-- Big-endian 8-byte read (models `get_u64`). -/
def getU64 (l : List Nat) : Nat :=
  byteAt l 0 * 72057594037927936 + byteAt l 1 * 281474976710656 +
  byteAt l 2 * 1099511627776 + byteAt l 3 * 4294967296 +
  byteAt l 4 * 16777216 + byteAt l 5 * 65536 + byteAt l 6 * 256 + byteAt l 7

theorem length_putU16 (n : Nat) : (putU16 n).length = 2 := rfl

theorem length_putU64 (n : Nat) : (putU64 n).length = 8 := rfl

theorem getU16_putU16_append (n : Nat) (r : List Nat) :
    getU16 (putU16 n ++ r) = n % 65536 := by
  simp only [getU16, putU16, byteAt, List.cons_append, List.nil_append,
    List.getD_cons_zero, List.getD_cons_succ]
  omega

theorem getU64_putU64_append (n : Nat) (r : List Nat) :
    getU64 (putU64 n ++ r) = n % 18446744073709551616 := by
  simp only [getU64, putU64, byteAt, List.cons_append, List.nil_append,
    List.getD_cons_zero, List.getD_cons_succ]
  omega

theorem drop_putU16_append (n : Nat) (r : List Nat) :
    (putU16 n ++ r).drop 2 = r := rfl

theorem drop_putU64_append (n : Nat) (r : List Nat) :
    (putU64 n ++ r).drop 8 = r := rfl

/-- A key: raw bytes plus a 64-bit version stamp.
Modelled from the spec: the key type (`KeySlice`/`KeyVec`) lives outside the
three given source files; per the spec it is a raw byte sequence together
with a 64-bit version stamp, the empty byte sequence serving as the
invalid/sentinel value. -/
structure KeyT where
  bytes : List Nat
  ts : Nat
deriving DecidableEq

/-- Lexicographic byte comparison (ascending). -/
def compareBytes : List Nat → List Nat → Ordering
  | [], [] => .eq
  | [], _ :: _ => .lt
  | _ :: _, [] => .gt
  | a :: as', b :: bs' =>
    if a < b then .lt else if b < a then .gt else compareBytes as' bs'

/-- Modelled from the spec: the `Ord` instance of the key type (defined
outside the given sources) orders keys bytewise ascending on the raw key,
then **descending** on the version stamp (newer versions sort first). -/
def compareKey (a b : KeyT) : Ordering :=
  match compareBytes a.bytes b.bytes with
  | .lt => .lt
  | .gt => .gt
  | .eq => compare b.ts a.ts

def keyLT (a b : KeyT) : Prop := compareKey a b = .lt

def keyLE (a b : KeyT) : Prop := compareKey a b ≠ .gt

instance (a b : KeyT) : Decidable (keyLT a b) := by unfold keyLT; infer_instance

instance (a b : KeyT) : Decidable (keyLE a b) := by unfold keyLE; infer_instance

theorem compareBytes_eq_iff (a b : List Nat) : compareBytes a b = .eq ↔ a = b := by
  induction a generalizing b with
  | nil => cases b <;> simp [compareBytes]
  | cons x xs ih =>
    cases b with
    | nil => simp [compareBytes]
    | cons y ys =>
      simp only [compareBytes]
      by_cases h1 : x < y
      · simp [h1]; omega
      · by_cases h2 : y < x
        · simp [h1, h2]; omega
        · have hxy : x = y := by omega
          simp [h1, h2, hxy, ih]

theorem compareBytes_swap (a b : List Nat) :
    compareBytes b a = (compareBytes a b).swap := by
  induction a generalizing b with
  | nil => cases b <;> simp [compareBytes, Ordering.swap]
  | cons x xs ih =>
    cases b with
    | nil => simp [compareBytes, Ordering.swap]
    | cons y ys =>
      simp only [compareBytes]
      by_cases h1 : x < y
      · simp [h1, show ¬ y < x by omega, Ordering.swap]
      · by_cases h2 : y < x
        · simp [h1, h2, Ordering.swap]
        · simp [h1, h2, ih]

theorem compareBytes_lt_trans {a b c : List Nat}
    (hab : compareBytes a b = .lt) (hbc : compareBytes b c = .lt) :
    compareBytes a c = .lt := by
  induction a generalizing b c with
  | nil =>
    cases b with
    | nil => simp [compareBytes] at hab
    | cons y ys => cases c with
      | nil => simp [compareBytes] at hbc
      | cons z zs => simp [compareBytes]
  | cons x xs ih =>
    cases b with
    | nil => simp [compareBytes] at hab
    | cons y ys =>
      cases c with
      | nil => simp [compareBytes] at hbc
      | cons z zs =>
        simp only [compareBytes] at hab hbc ⊢
        by_cases hxy : x < y
        · by_cases hyz : y < z
          · simp [show x < z by omega]
          · by_cases hzy : z < y
            · simp [hxy, hyz, hzy] at hbc
            · have : y = z := by omega
              subst this
              simp [hxy]
        · by_cases hyx : y < x
          · simp [hxy, hyx] at hab
          · have hxy' : x = y := by omega
            subst hxy'
            by_cases hyz : x < z
            · simp [hyz]
            · by_cases hzy : z < x
              · simp [hyz, hzy] at hbc
              · simp [hxy, hyx] at hab
                simp [hyz, hzy] at hbc ⊢
                exact ih hab hbc

theorem compareBytes_self (a : List Nat) : compareBytes a a = .eq :=
  (compareBytes_eq_iff a a).mpr rfl

theorem compareKey_eq_iff (a b : KeyT) : compareKey a b = .eq ↔ a = b := by
  rcases a with ⟨ab, ats⟩
  rcases b with ⟨bb, bts⟩
  unfold compareKey
  rcases h : compareBytes ab bb with _ | _ | _ <;> simp only
  · constructor
    · intro hc; simp at hc
    · intro hc
      injection hc with hc1 hc2
      subst hc1; rw [compareBytes_self] at h; simp at h
  · rw [compareBytes_eq_iff] at h
    subst h
    constructor
    · intro hc
      have := Nat.compare_eq_eq.mp hc
      simp [this]
    · intro hc
      injection hc with hc1 hc2
      subst hc2; exact Nat.compare_eq_eq.mpr rfl
  · constructor
    · intro hc; simp at hc
    · intro hc
      injection hc with hc1 hc2
      subst hc1; rw [compareBytes_self] at h; simp at h

theorem compareKey_swap (a b : KeyT) : compareKey b a = (compareKey a b).swap := by
  rcases a with ⟨ab, ats⟩
  rcases b with ⟨bb, bts⟩
  unfold compareKey
  have hswap := compareBytes_swap ab bb
  rcases h : compareBytes ab bb with _ | _ | _ <;>
    rw [h] at hswap <;> simp only [Ordering.swap] at hswap <;> rw [hswap] <;> simp only
  · rfl
  · rcases Nat.lt_trichotomy ats bts with h1 | h1 | h1
    · rw [Nat.compare_eq_lt.mpr h1, Nat.compare_eq_gt.mpr h1]; rfl
    · subst h1; rw [Nat.compare_eq_eq.mpr rfl]; rfl
    · rw [Nat.compare_eq_lt.mpr h1, Nat.compare_eq_gt.mpr h1]; rfl
  · rfl

theorem compareKey_lt_trans {a b c : KeyT}
    (hab : compareKey a b = .lt) (hbc : compareKey b c = .lt) :
    compareKey a c = .lt := by
  rcases a with ⟨ab, ats⟩
  rcases b with ⟨bb, bts⟩
  rcases c with ⟨cb, cts⟩
  unfold compareKey at hab hbc ⊢
  rcases h1 : compareBytes ab bb with _ | _ | _ <;> rw [h1] at hab <;>
    simp only at hab <;>
    rcases h2 : compareBytes bb cb with _ | _ | _ <;> rw [h2] at hbc <;>
      simp only at hbc
  · rw [compareBytes_lt_trans h1 h2]
  · rw [compareBytes_eq_iff] at h2; subst h2; rw [h1]
  · exact absurd hbc (by simp)
  · rw [compareBytes_eq_iff] at h1; subst h1; rw [h2]
  · rw [compareBytes_eq_iff] at h1
    rw [compareBytes_eq_iff] at h2
    subst h1; subst h2
    rw [compareBytes_self]
    simp only
    have h1' := Nat.compare_eq_lt.mp hab
    have h2' := Nat.compare_eq_lt.mp hbc
    exact Nat.compare_eq_lt.mpr (by omega)
  · exact absurd hbc (by simp)
  · exact absurd hab (by simp)
  · exact absurd hab (by simp)
  · exact absurd hab (by simp)

theorem keyLE_iff_not_keyLT (a b : KeyT) : keyLE a b ↔ ¬ keyLT b a := by
  unfold keyLE keyLT
  rw [compareKey_swap]
  cases h : compareKey b a <;> simp [h, Ordering.swap]

theorem keyLE_total (a b : KeyT) : keyLE a b ∨ keyLE b a := by
  unfold keyLE
  rw [compareKey_swap b a]
  cases h : compareKey b a <;> simp [h, Ordering.swap]

theorem keyLT_trichotomy (a b : KeyT) : keyLT a b ∨ a = b ∨ keyLT b a := by
  unfold keyLT
  rw [compareKey_swap]
  cases h : compareKey b a <;> simp [h, Ordering.swap]
  have := (compareKey_eq_iff b a).mp h
  exact this.symm

theorem keyLT_trans {a b c : KeyT} (h1 : keyLT a b) (h2 : keyLT b c) : keyLT a c :=
  compareKey_lt_trans h1 h2

theorem keyLT_of_keyLT_of_keyLE {a b c : KeyT} (h1 : keyLT a b) (h2 : keyLE b c) :
    keyLT a c := by
  rcases keyLT_trichotomy b c with h | h | h
  · exact keyLT_trans h1 h
  · subst h; exact h1
  · exact absurd h ((keyLE_iff_not_keyLT b c).mp h2)

theorem keyLE_trans {a b c : KeyT} (h1 : keyLE a b) (h2 : keyLE b c) : keyLE a c := by
  rw [keyLE_iff_not_keyLT] at h1 h2 ⊢
  intro h
  rcases keyLT_trichotomy a b with h' | h' | h'
  · exact h2 (keyLT_trans h h')
  · subst h'; exact h2 h
  · exact h1 h'

theorem keyLE_refl (a : KeyT) : keyLE a a := by
  unfold keyLE
  rw [(compareKey_eq_iff a a).mpr rfl]
  simp

/-! ### Block builder (`src/block/builder.rs`) -/

/-- `SIZEOF_U16` from `src/block/mod.rs` (referenced by the given sources). -/
def SIZEOF_U16 : Nat := 2

/-- A block: serialized key-value data plus the per-entry offset index
(`Block` in `src/block`). -/
structure Block where
  data : List Nat
  offsets : List Nat
deriving DecidableEq

/-- `BlockBuilder` state; `first_key` with empty bytes is the
not-yet-set sentinel (`KeyVec::new()`). -/
structure BlockBuilder where
  offsets : List Nat
  data : List Nat
  block_size : Nat
  first_key : KeyT
deriving DecidableEq

/-- `compute_overlap`: the longest common byte prefix of the block's first
key and the key being added (the source's loop counts equal leading bytes). -/
def compute_overlap : List Nat → List Nat → Nat
  | a :: as', b :: bs' => if a = b then compute_overlap as' bs' + 1 else 0
  | _, _ => 0

/-- `BlockBuilder::new`. -/
def BlockBuilder.new (block_size : Nat) : BlockBuilder :=
  { offsets := [], data := [], block_size := block_size, first_key := ⟨[], 0⟩ }

/-- `BlockBuilder::estimated_size`: entry-count field + offsets + data. -/
def BlockBuilder.estimated_size (b : BlockBuilder) : Nat :=
  SIZEOF_U16 + b.offsets.length * SIZEOF_U16 + b.data.length

/-- `BlockBuilder::is_empty`. -/
def BlockBuilder.is_empty (b : BlockBuilder) : Bool := b.offsets.isEmpty

/-- `key.raw_len()`: raw key bytes plus the 8-byte version stamp. -/
def KeyT.raw_len (k : KeyT) : Nat := k.bytes.length + 8

/-- `BlockBuilder::add`.  `none` models the `assert!(!key.is_empty())`
panic; `some (false, b)` is the rejection path (no mutation); on success
the entry is encoded as overlap length, rest-key length, rest-key bytes,
version stamp, value length, value bytes, and the entry's starting offset
is recorded (`data.len() as u16`, hence `% 65536`). -/
def BlockBuilder.add (b : BlockBuilder) (key : KeyT) (value : List Nat) :
    Option (Bool × BlockBuilder) :=
  if key.bytes = [] then none
  else if b.estimated_size + key.raw_len + value.length + SIZEOF_U16 * 3 > b.block_size
      ∧ b.is_empty = false then
    some (false, b)
  else
    let overlap := compute_overlap b.first_key.bytes key.bytes
    some (true,
      { offsets := b.offsets ++ [b.data.length % 65536],
        data := b.data ++ putU16 overlap ++ putU16 (key.bytes.length - overlap) ++
          key.bytes.drop overlap ++ putU64 key.ts ++ putU16 value.length ++ value,
        block_size := b.block_size,
        first_key := if b.first_key.bytes = [] then key else b.first_key })

/-- `BlockBuilder::build`; `none` models the panic on an empty builder. -/
def BlockBuilder.build (b : BlockBuilder) : Option Block :=
  if b.is_empty then none else some { data := b.data, offsets := b.offsets }

/-- An entry handed to the builder: key (with version stamp) and value. -/
abbrev EntryT := KeyT × List Nat

/-- Run a sequence of `add` calls, requiring every one to be accepted
(returns `none` if any add panics or returns `false`). -/
def addAll (b : BlockBuilder) : List EntryT → Option BlockBuilder
  | [] => some b
  | e :: es =>
    match b.add e.1 e.2 with
    | some (true, b') => addAll b' es
    | _ => none

/-- Run a sequence of `add` calls, keeping the builder state whatever each
call returns (returns `none` only if an add panics). -/
def runAdds (b : BlockBuilder) : List EntryT → Option BlockBuilder
  | [] => some b
  | e :: es =>
    match b.add e.1 e.2 with
    | some (_, b') => runAdds b' es
    | none => none

/-! ### Block iterator (`src/block/iterator.rs`) -/

/-- `BlockIterator` state: current key (empty bytes ⇔ invalid), current
value range into `block.data`, current index, and the block's first key. -/
structure BlockIterator where
  block : Block
  key : KeyT
  value_range : Nat × Nat
  idx : Nat
  first_key : KeyT
deriving DecidableEq

/-- `Block::get_first_key`: skip the (zero) overlap field, read the key
length, the key bytes and the version stamp. -/
def Block.get_first_key (b : Block) : KeyT :=
  let buf := b.data.drop 2
  let key_len := getU16 buf
  ⟨(buf.drop 2).take key_len, getU64 ((buf.drop 2).drop key_len)⟩

/-- `BlockIterator::new`. -/
def BlockIterator.new (block : Block) : BlockIterator :=
  { block := block, key := ⟨[], 0⟩, value_range := (0, 0), idx := 0,
    first_key := block.get_first_key }

/-- `BlockIterator::seek_to_offset`: decode the entry at a byte offset;
the key is reconstructed as `first_key[..overlap_len] ++ rest`, the value
range is `offset + 2 + 2 + 8 + key_len + 2` up to `+ value_len`. -/
def BlockIterator.seek_to_offset (it : BlockIterator) (offset : Nat) : BlockIterator :=
  let entry := it.block.data.drop offset
  let overlap_len := getU16 entry
  let key_len := getU16 (entry.drop 2)
  let rest := ((entry.drop 2).drop 2).take key_len
  let ts := (((entry.drop 2).drop 2).drop key_len).take 8
  let value_len := getU16 ((((entry.drop 2).drop 2).drop key_len).drop 8)
  let value_offset_begin := offset + SIZEOF_U16 + SIZEOF_U16 + 8 + key_len + SIZEOF_U16
  { it with
    key := ⟨it.first_key.bytes.take overlap_len ++ rest, getU64 ts⟩,
    value_range := (value_offset_begin, value_offset_begin + value_len) }

/-- `BlockIterator::seek_to`: out-of-range index clears the key (the
invalid/exhausted sentinel, leaving `idx` untouched); otherwise decode at
the entry's recorded offset and set `idx`. -/
def BlockIterator.seek_to (it : BlockIterator) (idx : Nat) : BlockIterator :=
  if it.block.offsets.length ≤ idx then
    { it with key := ⟨[], 0⟩, value_range := (0, 0) }
  else
    { it.seek_to_offset (it.block.offsets.getD idx 0) with idx := idx }

/-- `BlockIterator::seek_to_first`. -/
def BlockIterator.seek_to_first (it : BlockIterator) : BlockIterator := it.seek_to 0

/-- `BlockIterator::create_and_seek_to_first`. -/
def BlockIterator.create_and_seek_to_first (block : Block) : BlockIterator :=
  (BlockIterator.new block).seek_to_first

/-- `BlockIterator::next`: increment the index, then re-seek. -/
def BlockIterator.next (it : BlockIterator) : BlockIterator :=
  { it with idx := it.idx + 1 }.seek_to (it.idx + 1)

/-- `BlockIterator::is_valid`. -/
def BlockIterator.is_valid (it : BlockIterator) : Bool := !it.key.bytes.isEmpty

/-- `BlockIterator::key`; `none` models the `debug_assert!` precondition
failure on an invalid iterator. -/
def BlockIterator.keyChecked (it : BlockIterator) : Option KeyT :=
  if it.key.bytes = [] then none else some it.key

/-- `BlockIterator::value`: the byte range `value_range` of `block.data`;
`none` models the `debug_assert!` precondition failure when invalid. -/
def BlockIterator.valueChecked (it : BlockIterator) : Option (List Nat) :=
  if it.key.bytes = [] then none
  else some ((it.block.data.drop it.value_range.1).take
    (it.value_range.2 - it.value_range.1))

/-- The current value of a (valid) iterator, as read by
`BlockIterator::value`. -/
def BlockIterator.value (it : BlockIterator) : List Nat :=
  (it.block.data.drop it.value_range.1).take (it.value_range.2 - it.value_range.1)

/-- The binary-search loop of `BlockIterator::seek_to_key`; `none` models
the `assert!(self.is_valid())` panic after a probe.  The `fuel` argument
makes the loop structurally recursive so that it evaluates; each iteration
strictly shrinks `high - low`, so the `fuel = 0` escape (also `none`) is
unreachable for the `entry_count + 1` fuel `seek_to_key` supplies, as the
loop-invariant lemma proves. -/
def seekToKeyLoop (it : BlockIterator) (key : KeyT) (low high : Nat) :
    Nat → Option BlockIterator
  | 0 => none
  | fuel + 1 =>
    if low < high then
      if (it.seek_to (low + (high - low) / 2)).key.bytes = [] then none
      else
        match compareKey (it.seek_to (low + (high - low) / 2)).key key with
        | .lt => seekToKeyLoop (it.seek_to (low + (high - low) / 2)) key
            (low + (high - low) / 2 + 1) high fuel
        | .gt => seekToKeyLoop (it.seek_to (low + (high - low) / 2)) key
            low (low + (high - low) / 2) fuel
        | .eq => some (it.seek_to (low + (high - low) / 2))
    else some (it.seek_to low)

/-- `BlockIterator::seek_to_key`: lower-bound binary search over
`[0, entry_count)`. -/
def BlockIterator.seek_to_key (it : BlockIterator) (key : KeyT) :
    Option BlockIterator :=
  seekToKeyLoop it key 0 it.block.offsets.length (it.block.offsets.length + 1)

/-- `BlockIterator::create_and_seek_to_key`. -/
def BlockIterator.create_and_seek_to_key (block : Block) (key : KeyT) :
    Option BlockIterator :=
  (BlockIterator.new block).seek_to_key key

/-- Collected (key, value) pairs from repeatedly calling `next()` while the
iterator is valid (`fuel` bounds the number of steps; any fuel larger than
the entry count is enough). -/
def collectEntries (it : BlockIterator) : Nat → List (KeyT × List Nat)
  | 0 => []
  | fuel + 1 =>
    if it.key.bytes = [] then []
    else (it.key, it.value) :: collectEntries it.next fuel

/-! ### Size accounting (claim C2) -/

/-- Modelled from the spec: the serialized block layout (owned by the table
writer collaborator, outside the given sources) is the entry data followed
by one 2-byte offset per entry and a 2-byte entry count, so the serialized
size is `data_bytes + 2 * entry_count + 2`. -/
def blockSerializedSize (blk : Block) : Nat :=
  blk.data.length + blk.offsets.length * SIZEOF_U16 + SIZEOF_U16

theorem compute_overlap_le_left (a b : List Nat) :
    compute_overlap a b ≤ a.length := by
  induction a generalizing b with
  | nil => cases b <;> simp [compute_overlap]
  | cons x xs ih =>
    cases b with
    | nil => simp [compute_overlap]
    | cons y ys =>
      simp only [compute_overlap]
      by_cases h : x = y
      · simp only [h, if_pos rfl, List.length_cons]
        exact Nat.succ_le_succ (ih ys)
      · simp [h]

theorem compute_overlap_le_right (a b : List Nat) :
    compute_overlap a b ≤ b.length := by
  induction a generalizing b with
  | nil => cases b <;> simp [compute_overlap]
  | cons x xs ih =>
    cases b with
    | nil => simp [compute_overlap]
    | cons y ys =>
      simp only [compute_overlap]
      by_cases h : x = y
      · simp only [h, if_pos rfl, List.length_cons]
        exact Nat.succ_le_succ (ih ys)
      · simp [h]

/-- The byte prefixes agreed on by `compute_overlap` coincide. -/
theorem compute_overlap_take (a b : List Nat) :
    a.take (compute_overlap a b) = b.take (compute_overlap a b) := by
  induction a generalizing b with
  | nil => cases b <;> simp [compute_overlap]
  | cons x xs ih =>
    cases b with
    | nil => simp [compute_overlap]
    | cons y ys =>
      by_cases h : x = y
      · subst h
        have hco : compute_overlap (x :: xs) (x :: ys) = compute_overlap xs ys + 1 := by
          simp [compute_overlap]
        rw [hco, List.take_succ_cons, List.take_succ_cons, ih ys]
      · simp [compute_overlap, h]

theorem add_accept_estimated_size {b b' : BlockBuilder} {key : KeyT}
    {value : List Nat} (h : b.add key value = some (true, b')) :
    b'.block_size = b.block_size ∧
    b'.offsets.length = b.offsets.length + 1 ∧
    b'.estimated_size = b.estimated_size + 16 +
      (key.bytes.length - compute_overlap b.first_key.bytes key.bytes) +
      value.length := by
  unfold BlockBuilder.add at h
  by_cases hk : key.bytes = []
  · simp [hk] at h
  · rw [if_neg hk] at h
    by_cases hrej : b.estimated_size + key.raw_len + value.length + SIZEOF_U16 * 3 >
        b.block_size ∧ b.is_empty = false
    · rw [if_pos hrej] at h; simp at h
    · rw [if_neg hrej] at h
      simp only [Option.some_inj] at h
      have hb' := congrArg Prod.snd h
      simp only at hb'
      subst hb'
      refine ⟨rfl, by simp, ?_⟩
      have hov := compute_overlap_le_right b.first_key.bytes key.bytes
      simp only [BlockBuilder.estimated_size, SIZEOF_U16, List.length_append,
        length_putU16, length_putU64, List.length_drop, List.length_cons,
        List.length_nil]
      omega

theorem add_reject_of_over {b : BlockBuilder} {key : KeyT} {value : List Nat}
    (hk : key.bytes ≠ [])
    (hover : b.estimated_size + key.raw_len + value.length + SIZEOF_U16 * 3 >
      b.block_size)
    (hne : b.is_empty = false) :
    b.add key value = some (false, b) := by
  unfold BlockBuilder.add
  rw [if_neg hk, if_pos ⟨hover, hne⟩]

/-- Invariant maintained by any run of `add` calls: the configured block
size never changes, and once the builder holds at least two entries its
estimated size is at most `block_size + 2`. -/
theorem runAdds_size_inv (B : Nat) :
    ∀ (es : List EntryT) (b0 b : BlockBuilder),
      runAdds b0 es = some b → b0.block_size = B →
      (b0.offsets.length ≤ 1 ∨ b0.estimated_size ≤ B + 2) →
      b.block_size = B ∧ (b.offsets.length ≤ 1 ∨ b.estimated_size ≤ B + 2) := by
  intro es
  induction es with
  | nil =>
    intro b0 b h hB hinv
    simp only [runAdds, Option.some_inj] at h
    subst h; exact ⟨hB, hinv⟩
  | cons e es ih =>
    intro b0 b h hB hinv
    simp only [runAdds] at h
    rcases hadd : b0.add e.1 e.2 with _ | ⟨flag, b1⟩
    · rw [hadd] at h; simp at h
    · rw [hadd] at h
      simp only at h
      rcases flag with _ | _
      · -- rejected: builder unchanged
        unfold BlockBuilder.add at hadd
        by_cases hk : e.1.bytes = []
        · simp [hk] at hadd
        · rw [if_neg hk] at hadd
          by_cases hrej : b0.estimated_size + e.1.raw_len + e.2.length + SIZEOF_U16 * 3 >
              b0.block_size ∧ b0.is_empty = false
          · rw [if_pos hrej] at hadd
            simp only [Option.some_inj, Prod.mk.injEq] at hadd
            exact ih b1 b h (hadd.2 ▸ hB) (hadd.2 ▸ hinv)
          · rw [if_neg hrej] at hadd
            simp at hadd
      · -- accepted
        have hsz := add_accept_estimated_size hadd
        refine ih b1 b h (hsz.1.trans hB) ?_
        unfold BlockBuilder.add at hadd
        by_cases hk : e.1.bytes = []
        · simp [hk] at hadd
        · rw [if_neg hk] at hadd
          by_cases hrej : b0.estimated_size + e.1.raw_len + e.2.length + SIZEOF_U16 * 3 >
              b0.block_size ∧ b0.is_empty = false
          · rw [if_pos hrej] at hadd; simp at hadd
          · by_cases hemp : b0.is_empty = true
            · -- first entry: afterwards exactly one offset
              left
              have : b0.offsets = [] := by
                simpa [BlockBuilder.is_empty, List.isEmpty_iff] using hemp
              rw [hsz.2.1, this]
              simp
            · -- non-empty: the size check passed
              have hle : b0.estimated_size + e.1.raw_len + e.2.length + SIZEOF_U16 * 3 ≤
                  b0.block_size := by
                rcases le_or_lt (b0.estimated_size + e.1.raw_len + e.2.length +
                  SIZEOF_U16 * 3) b0.block_size with h' | h'
                · exact h'
                · exact absurd ⟨h',
                    by simpa using Bool.eq_false_iff.mpr (by simpa using hemp)⟩ hrej
              right
              have hov := compute_overlap_le_right b0.first_key.bytes e.1.bytes
              rw [hsz.2.2]
              simp only [KeyT.raw_len, SIZEOF_U16] at hle ⊢
              omega

/-- Claim C2 (amended): running any sequence of `add` calls on a builder
configured with block size `B`, (1) the estimated size
`2 + 2*entries + data_bytes` exceeds `B` by at most 2 bytes whenever the
builder holds two or more entries (only the lone unconditionally-admitted
first entry can overshoot arbitrarily), (2) the estimated size equals the
final serialized block size exactly, and (3) an add whose projected cost
`estimated_size + key.raw_len + value.len + 6` exceeds `B` on a non-empty
builder returns `false` and leaves the builder (offsets, data, first key)
unchanged. -/
theorem builder_size_bound (B : Nat) (es : List EntryT) (b : BlockBuilder)
    (h : runAdds (BlockBuilder.new B) es = some b) :
    (2 ≤ b.offsets.length → b.estimated_size ≤ B + 2) ∧
    (∀ blk : Block, b.build = some blk →
      b.estimated_size = blockSerializedSize blk) ∧
    (∀ (key : KeyT) (value : List Nat), key.bytes ≠ [] →
      b.estimated_size + key.raw_len + value.length + SIZEOF_U16 * 3 > B →
      b.is_empty = false →
      b.add key value = some (false, b)) := by
  have hinv := runAdds_size_inv B es (BlockBuilder.new B) b h rfl
    (by left; simp [BlockBuilder.new])
  refine ⟨?_, ?_, ?_⟩
  · intro h2
    rcases hinv.2 with h' | h'
    · omega
    · exact h'
  · intro blk hblk
    unfold BlockBuilder.build at hblk
    by_cases he : b.is_empty
    · simp [he] at hblk
    · rw [if_neg he] at hblk
      simp only [Option.some_inj] at hblk
      subst hblk
      simp only [BlockBuilder.estimated_size, blockSerializedSize]
      omega
  · intro key value hk hover hne
    exact add_reject_of_over hk (hinv.1 ▸ hover) hne

/-- Witness for C2's amended theorem at a concrete run. -/
theorem builder_size_bound_witness :
    runAdds (BlockBuilder.new 20) [(⟨[1], 0⟩, [7])] =
      some ((BlockBuilder.new 20).add ⟨[1], 0⟩ [7] |>.get (by decide) |>.2) ∧
    (((BlockBuilder.new 20).add ⟨[1], 0⟩ [7] |>.get (by decide) |>.2).estimated_size ≤
      20 + 2) := by
  constructor
  · decide
  · have := builder_size_bound 20 [(⟨[1], 0⟩, [7])]
      ((BlockBuilder.new 20).add ⟨[1], 0⟩ [7] |>.get (by decide) |>.2) (by decide)
    -- one entry of estimated size 19 ≤ 22, read off by evaluation
    decide

/-- The two-entry run refuting claim C2 as stated: block size 36, entries
`("ab", "")` then `("xy", "")`; the second add's projected cost is exactly 36
so it is accepted, yet the builder then holds two entries with estimated
size 38 > 36. -/
def sizeCexEntries : List EntryT := [(⟨[97, 98], 0⟩, []), (⟨[120, 121], 0⟩, [])]

/-- Counterexample to claim C2 as stated: with block size 36, after two
accepted adds the builder holds 2 entries (not just the first) and its
estimated size is 38, exceeding the configured block size 36 — so an add
that did exceed the budget on a non-empty builder returned `true`. -/
theorem builder_size_cex :
    (runAdds (BlockBuilder.new 36) sizeCexEntries).map
        (fun b => (b.offsets.length, b.estimated_size)) = some (2, 38) ∧
    (addAll (BlockBuilder.new 36) sizeCexEntries).isSome = true ∧ 36 < 38 := by
  refine ⟨by decide, by decide, by omega⟩

/-! ### Claim C8: access on an invalid iterator -/

/-- Claim C8: calling `key()` or `value()` on an invalid iterator (empty
current key, `is_valid() = false`) fails fatally, whatever the block and
whatever way the invalid state was reached. -/
theorem invalid_iterator_access_fatal (it : BlockIterator)
    (h : it.is_valid = false) :
    it.keyChecked = none ∧ it.valueChecked = none := by
  have hk : it.key.bytes = [] := by
    simpa [BlockIterator.is_valid, List.isEmpty_iff] using h
  simp [BlockIterator.keyChecked, BlockIterator.valueChecked, hk]

/-- A concrete one-entry block (key `[1]` with version stamp 5, value `[2]`),
as produced by the builder. -/
def demoBlock : Block :=
  ⟨putU16 0 ++ putU16 1 ++ [1] ++ putU64 5 ++ putU16 1 ++ [2], [0]⟩

/-- Witness for C8: iterating one step past the end of a one-entry block
reaches the invalid state, where `key()`/`value()` fail. -/
theorem invalid_iterator_access_fatal_witness :
    ((BlockIterator.create_and_seek_to_first demoBlock).next.is_valid = false) ∧
    ((BlockIterator.create_and_seek_to_first demoBlock).next.keyChecked = none ∧
     (BlockIterator.create_and_seek_to_first demoBlock).next.valueChecked = none) :=
  ⟨by decide, invalid_iterator_access_fatal _ (by decide)⟩

/-! ### Claim C1: build / iterate round trip -/

/-- The bytes `add` appends for one entry, given the first key it was
compressed against. -/
def entryEnc (fk : KeyT) (e : EntryT) : List Nat :=
  putU16 (compute_overlap fk.bytes e.1.bytes) ++
  putU16 (e.1.bytes.length - compute_overlap fk.bytes e.1.bytes) ++
  e.1.bytes.drop (compute_overlap fk.bytes e.1.bytes) ++
  putU64 e.1.ts ++ putU16 e.2.length ++ e.2

/-- Per-entry encodings of a run of accepted adds: the first entry is
compressed against the empty sentinel (overlap 0), the rest against the
first entry's key. -/
def entryEncs : List EntryT → List (List Nat)
  | [] => []
  | e :: rest => entryEnc ⟨[], 0⟩ e :: rest.map (entryEnc e.1)

/-- The offsets the builder records: running byte positions, each truncated
to `u16`. -/
def offsetsFrom (base : Nat) : List (List Nat) → List Nat
  | [] => []
  | l :: ls => base % 65536 :: offsetsFrom (base + l.length) ls

/-- The first key of a run of entries (empty sentinel when none). -/
def headKeyOf : List EntryT → KeyT
  | [] => ⟨[], 0⟩
  | e :: _ => e.1

/-- Closed form of the builder state after a run of accepted adds. -/
def builderOf (B : Nat) (es : List EntryT) : BlockBuilder :=
  { offsets := offsetsFrom 0 (entryEncs es),
    data := (entryEncs es).flatten,
    block_size := B,
    first_key := headKeyOf es }

theorem entryEnc_length (fk : KeyT) (e : EntryT) :
    (entryEnc fk e).length =
      14 + (e.1.bytes.length - compute_overlap fk.bytes e.1.bytes) + e.2.length := by
  simp only [entryEnc, List.length_append, length_putU16, length_putU64,
    List.length_drop]
  omega

theorem entryEncs_length (es : List EntryT) : (entryEncs es).length = es.length := by
  cases es <;> simp [entryEncs]

theorem offsetsFrom_length (base : Nat) (ls : List (List Nat)) :
    (offsetsFrom base ls).length = ls.length := by
  induction ls generalizing base with
  | nil => rfl
  | cons l ls ih => simp [offsetsFrom, ih]

theorem entryEncs_append_singleton (es : List EntryT) (e : EntryT) (hne : es ≠ []) :
    entryEncs (es ++ [e]) = entryEncs es ++ [entryEnc (headKeyOf es) e] := by
  cases es with
  | nil => exact absurd rfl hne
  | cons e0 rest => simp [entryEncs, headKeyOf, List.map_append]

theorem offsetsFrom_append_singleton (base : Nat) (ls : List (List Nat))
    (l : List Nat) :
    offsetsFrom base (ls ++ [l]) =
      offsetsFrom base ls ++ [(base + (ls.map List.length).sum) % 65536] := by
  induction ls generalizing base with
  | nil => simp [offsetsFrom]
  | cons l0 ls ih =>
    simp only [List.cons_append, offsetsFrom, List.map_cons, List.sum_cons,
      List.append_eq]
    rw [ih, Nat.add_assoc]

theorem builderOf_nil (B : Nat) : builderOf B [] = BlockBuilder.new B := rfl

/-- One accepted `add` on a closed-form builder state extends the run. -/
theorem add_builderOf (B : Nat) (es : List EntryT) (e : EntryT) (b' : BlockBuilder)
    (hpre : es = [] ∨ (headKeyOf es).bytes ≠ [])
    (hacc : (builderOf B es).add e.1 e.2 = some (true, b')) :
    b' = builderOf B (es ++ [e]) := by
  unfold BlockBuilder.add at hacc
  by_cases hk : e.1.bytes = []
  · simp [hk] at hacc
  · rw [if_neg hk] at hacc
    by_cases hrej : (builderOf B es).estimated_size + e.1.raw_len + e.2.length +
        SIZEOF_U16 * 3 > (builderOf B es).block_size ∧
        (builderOf B es).is_empty = false
    · rw [if_pos hrej] at hacc; simp at hacc
    · rw [if_neg hrej] at hacc
      simp only [Option.some_inj, Prod.mk.injEq] at hacc
      have hb' := hacc.2
      subst hb'
      cases es with
      | nil =>
        simp [builderOf, entryEncs, headKeyOf, offsetsFrom, entryEnc,
          List.append_assoc]
      | cons e0 rest =>
        have hfk : (headKeyOf (e0 :: rest)).bytes ≠ [] := by
          rcases hpre with h | h
          · simp at h
          · exact h
        simp only [headKeyOf] at hfk
        simp [builderOf, entryEncs, headKeyOf, List.map_append,
          List.length_flatten, List.flatten_append, List.append_assoc,
          entryEnc, hfk, offsetsFrom_append_singleton, offsetsFrom,
          List.map_cons, List.sum_cons]
        omega

/-- `addAll` reaches exactly the closed-form builder state. -/
theorem addAll_builderOf (B : Nat) :
    ∀ (es pre : List EntryT) (b : BlockBuilder),
      (pre = [] ∨ (headKeyOf pre).bytes ≠ []) →
      addAll (builderOf B pre) es = some b →
      b = builderOf B (pre ++ es) := by
  intro es
  induction es with
  | nil =>
    intro pre b hpre h
    simp only [addAll, Option.some_inj] at h
    simp [← h]
  | cons e es ih =>
    intro pre b hpre h
    simp only [addAll] at h
    rcases hadd : (builderOf B pre).add e.1 e.2 with _ | ⟨flag, b1⟩ <;> rw [hadd] at h
    · simp at h
    · rcases flag with _ | _
      · simp at h
      · have hkey : e.1.bytes ≠ [] := by
          unfold BlockBuilder.add at hadd
          by_cases hk : e.1.bytes = []
          · simp [hk] at hadd
          · exact hk
        have hb1 : b1 = builderOf B (pre ++ [e]) := add_builderOf B pre e b1 hpre hadd
        subst hb1
        have hpre' : pre ++ [e] = [] ∨ (headKeyOf (pre ++ [e])).bytes ≠ [] := by
          right
          cases pre with
          | nil => simpa [headKeyOf] using hkey
          | cons p ps =>
            rcases hpre with h' | h'
            · simp at h'
            · simpa [headKeyOf] using h'
        have := ih (pre ++ [e]) b hpre' h
        simpa [List.append_assoc] using this

theorem addAll_keys_nonempty :
    ∀ (es : List EntryT) (b0 b : BlockBuilder), addAll b0 es = some b →
      ∀ e ∈ es, e.1.bytes ≠ [] := by
  intro es
  induction es with
  | nil => intro b0 b h e he; simp at he
  | cons e0 es ih =>
    intro b0 b h e he
    simp only [addAll] at h
    rcases hadd : b0.add e0.1 e0.2 with _ | ⟨flag, b1⟩ <;> rw [hadd] at h
    · simp at h
    · rcases flag with _ | _
      · simp at h
      · rcases List.mem_cons.mp he with h' | h'
        · subst h'
          unfold BlockBuilder.add at hadd
          by_cases hk : e.1.bytes = []
          · simp [hk] at hadd
          · exact hk
        · exact ih b1 b h e h'

/-- The block produced by `build` after a run of accepted adds. -/
def blockOf (es : List EntryT) : Block :=
  { data := (entryEncs es).flatten, offsets := offsetsFrom 0 (entryEncs es) }

/-- Default entry used with `List.getD`. -/
def dEntry : EntryT := (⟨[], 0⟩, [])

theorem build_builderOf (B : Nat) (es : List EntryT) (hne : es ≠ []) :
    (builderOf B es).build = some (blockOf es) := by
  unfold BlockBuilder.build
  have : (builderOf B es).is_empty = false := by
    cases es with
    | nil => exact absurd rfl hne
    | cons e rest => simp [builderOf, BlockBuilder.is_empty, entryEncs, offsetsFrom]
  rw [this]
  rfl

theorem take_append_exact {a b : List Nat} {n : Nat} (h : a.length = n) :
    (a ++ b).take n = a := by
  subst h; exact List.take_left a b

theorem drop_append_exact {a b : List Nat} {n : Nat} (h : a.length = n) :
    (a ++ b).drop n = b := by
  subst h; exact List.drop_left a b

theorem compute_overlap_nil_left (b : List Nat) : compute_overlap [] b = 0 := by
  cases b <;> rfl

theorem getU64_putU64 (n : Nat) : getU64 (putU64 n) = n % 18446744073709551616 := by
  have := getU64_putU64_append n []
  simpa using this

/-- Decoding the first key of a built block returns the first entry's key. -/
theorem get_first_key_blockOf (e0 : EntryT) (rest : List EntryT)
    (hk : e0.1.bytes.length < 65536) (hts : e0.1.ts < 18446744073709551616) :
    (blockOf (e0 :: rest)).get_first_key = e0.1 := by
  have hdata : (blockOf (e0 :: rest)).data =
      putU16 0 ++ (putU16 e0.1.bytes.length ++ (e0.1.bytes ++ (putU64 e0.1.ts ++
        (putU16 e0.2.length ++ (e0.2 ++ ((rest.map (entryEnc e0.1)).flatten)))))) := by
    simp [blockOf, entryEncs, entryEnc, compute_overlap_nil_left,
      List.append_assoc]
  simp only [Block.get_first_key, hdata, drop_putU16_append,
    getU16_putU16_append]
  rw [Nat.mod_eq_of_lt hk]
  rw [take_append_exact rfl, drop_append_exact rfl, getU64_putU64_append,
    Nat.mod_eq_of_lt hts]

theorem entryEncs_getD (es : List EntryT) (i : Nat) (hi : i < es.length) :
    (entryEncs es).getD i [] =
      entryEnc (if i = 0 then ⟨[], 0⟩ else headKeyOf es) (es.getD i dEntry) := by
  cases es with
  | nil => simp at hi
  | cons e0 rest =>
    cases i with
    | zero => simp [entryEncs, headKeyOf]
    | succ j =>
      simp only [entryEncs, headKeyOf, List.getD_cons_succ, Nat.succ_ne_zero,
        if_neg (by omega : ¬ j + 1 = 0)]
      have hj : j < rest.length := by simpa using hi
      rw [List.getD_eq_getElem?_getD, List.getElem?_map,
        List.getElem?_eq_getElem hj]
      simp [List.getD_eq_getElem?_getD, List.getElem?_eq_getElem hj]

theorem length_le_flatten_of_mem {l : List Nat} {ls : List (List Nat)}
    (h : l ∈ ls) : l.length ≤ ls.flatten.length := by
  rw [List.length_flatten]
  exact List.single_le_sum (by simp) _ (List.mem_map_of_mem List.length h)

theorem sum_take_le (l : List Nat) (i : Nat) : (l.take i).sum ≤ l.sum := by
  conv_rhs => rw [← List.take_append_drop i l]
  rw [List.sum_append]
  omega

theorem seek_to_offset_block (it : BlockIterator) (off : Nat) :
    (it.seek_to_offset off).block = it.block := rfl

theorem seek_to_offset_first_key (it : BlockIterator) (off : Nat) :
    (it.seek_to_offset off).first_key = it.first_key := rfl

theorem seek_to_offset_idx (it : BlockIterator) (off : Nat) :
    (it.seek_to_offset off).idx = it.idx := rfl

/-- Decoding at the start offset of an encoded entry recovers the entry:
the key as `first_key[..overlap] ++ rest`, the version stamp, and the value
through the recorded byte range. -/
theorem seek_to_offset_spec (it : BlockIterator) (pre post : List Nat) (fk : KeyT)
    (e : EntryT)
    (hdata : it.block.data = pre ++ (entryEnc fk e ++ post))
    (hfk : it.first_key.bytes.take (compute_overlap fk.bytes e.1.bytes) =
      e.1.bytes.take (compute_overlap fk.bytes e.1.bytes))
    (hov65 : compute_overlap fk.bytes e.1.bytes < 65536)
    (hkl : e.1.bytes.length - compute_overlap fk.bytes e.1.bytes < 65536)
    (hvl : e.2.length < 65536)
    (hts : e.1.ts < 18446744073709551616) :
    (it.seek_to_offset pre.length).key = e.1 ∧
    (it.seek_to_offset pre.length).value = e.2 := by
  have hdata' : it.block.data = pre ++ (putU16 (compute_overlap fk.bytes e.1.bytes) ++
      (putU16 (e.1.bytes.length - compute_overlap fk.bytes e.1.bytes) ++
        ((e.1.bytes.drop (compute_overlap fk.bytes e.1.bytes)) ++
          (putU64 e.1.ts ++ (putU16 e.2.length ++ (e.2 ++ post)))))) := by
    rw [hdata]; simp [entryEnc, List.append_assoc]
  have h1 : it.block.data.drop pre.length =
      putU16 (compute_overlap fk.bytes e.1.bytes) ++
      (putU16 (e.1.bytes.length - compute_overlap fk.bytes e.1.bytes) ++
        ((e.1.bytes.drop (compute_overlap fk.bytes e.1.bytes)) ++
          (putU64 e.1.ts ++ (putU16 e.2.length ++ (e.2 ++ post))))) := by
    rw [hdata']; exact drop_append_exact rfl
  have hrestlen : (e.1.bytes.drop (compute_overlap fk.bytes e.1.bytes)).length =
      e.1.bytes.length - compute_overlap fk.bytes e.1.bytes := by
    simp
  constructor
  · -- the decoded key
    simp only [BlockIterator.seek_to_offset, h1, drop_putU16_append,
      getU16_putU16_append, Nat.mod_eq_of_lt hov65, Nat.mod_eq_of_lt hkl]
    rw [take_append_exact hrestlen, drop_append_exact hrestlen,
      take_append_exact (length_putU64 e.1.ts), getU64_putU64,
      Nat.mod_eq_of_lt hts, hfk, List.take_append_drop]
  · -- the decoded value
    have hpre2 : it.block.data =
        (pre ++ putU16 (compute_overlap fk.bytes e.1.bytes) ++
          putU16 (e.1.bytes.length - compute_overlap fk.bytes e.1.bytes) ++
          (e.1.bytes.drop (compute_overlap fk.bytes e.1.bytes)) ++
          putU64 e.1.ts ++ putU16 e.2.length) ++ (e.2 ++ post) := by
      rw [hdata']; simp [List.append_assoc]
    have hplen : (pre ++ putU16 (compute_overlap fk.bytes e.1.bytes) ++
        putU16 (e.1.bytes.length - compute_overlap fk.bytes e.1.bytes) ++
        (e.1.bytes.drop (compute_overlap fk.bytes e.1.bytes)) ++
        putU64 e.1.ts ++ putU16 e.2.length).length =
        pre.length + SIZEOF_U16 + SIZEOF_U16 + 8 +
          (e.1.bytes.length - compute_overlap fk.bytes e.1.bytes) + SIZEOF_U16 := by
      simp only [List.length_append, length_putU16, length_putU64, hrestlen,
        SIZEOF_U16]
      omega
    simp only [BlockIterator.value, BlockIterator.seek_to_offset, h1,
      drop_putU16_append, getU16_putU16_append, Nat.mod_eq_of_lt hov65,
      Nat.mod_eq_of_lt hkl]
    rw [drop_append_exact hrestlen, drop_putU64_append, getU16_putU16_append,
      Nat.mod_eq_of_lt hvl]
    have hsub : pre.length + SIZEOF_U16 + SIZEOF_U16 + 8 +
        (e.1.bytes.length - compute_overlap fk.bytes e.1.bytes) + SIZEOF_U16 +
        e.2.length -
        (pre.length + SIZEOF_U16 + SIZEOF_U16 + 8 +
          (e.1.bytes.length - compute_overlap fk.bytes e.1.bytes) + SIZEOF_U16) =
        e.2.length := by omega
    rw [hsub, hpre2, drop_append_exact hplen, take_append_exact rfl]

theorem offsetsFrom_getD (ls : List (List Nat)) :
    ∀ (i base : Nat), i < ls.length →
      (offsetsFrom base ls).getD i 0 =
        (base + ((ls.take i).map List.length).sum) % 65536 := by
  induction ls with
  | nil => intro i base hi; simp at hi
  | cons l0 ls ih =>
    intro i base hi
    cases i with
    | zero => simp [offsetsFrom]
    | succ j =>
      have hj : j < ls.length := by simpa using hi
      simp only [offsetsFrom, List.getD_cons_succ, List.take_succ_cons,
        List.map_cons, List.sum_cons]
      rw [ih j (base + l0.length) hj, Nat.add_assoc]

theorem blockOf_offsets_length (es : List EntryT) :
    (blockOf es).offsets.length = es.length := by
  simp [blockOf, offsetsFrom_length, entryEncs_length]

theorem seek_to_out (it : BlockIterator) (i : Nat)
    (h : it.block.offsets.length ≤ i) :
    it.seek_to i = { it with key := ⟨[], 0⟩, value_range := (0, 0) } := by
  simp [BlockIterator.seek_to, h]

theorem seek_to_in (it : BlockIterator) (i : Nat)
    (h : i < it.block.offsets.length) :
    it.seek_to i =
      { it.seek_to_offset (it.block.offsets.getD i 0) with idx := i } := by
  simp [BlockIterator.seek_to, Nat.not_le.mpr h]

/-- Full characterization of `seek_to` at an in-range index of a built
block: the decoded key, value and index are those of the `i`-th entry of
the run the block was built from. -/
theorem blockOf_seek_to_spec (es : List EntryT) (i : Nat) (hi : i < es.length)
    (hsize : (blockOf es).data.length < 65536)
    (hts : ∀ e ∈ es, e.1.ts < 18446744073709551616)
    (it : BlockIterator)
    (hb : it.block = blockOf es)
    (hf : it.first_key = (blockOf es).get_first_key) :
    (it.seek_to i).key = (es.getD i dEntry).1 ∧
    (it.seek_to i).value = (es.getD i dEntry).2 ∧
    (it.seek_to i).idx = i ∧
    (it.seek_to i).block = it.block ∧
    (it.seek_to i).first_key = it.first_key := by
  cases es with
  | nil => simp at hi
  | cons e0 rest =>
    -- abbreviations
    set es := e0 :: rest with hes
    have hlen0 : e0.1.bytes.length < 65536 := by
      have hmem : entryEnc ⟨[], 0⟩ e0 ∈ entryEncs es := by
        simp [hes, entryEncs]
      have h1 := length_le_flatten_of_mem hmem
      have h2 := entryEnc_length ⟨[], 0⟩ e0
      rw [compute_overlap_nil_left] at h2
      simp only [blockOf] at hsize
      omega
    have hts0 : e0.1.ts < 18446744073709551616 := hts e0 (by simp [hes])
    have hfk : it.first_key = e0.1 := by
      rw [hf, hes, get_first_key_blockOf e0 rest hlen0 hts0]
    -- the entry and its compression key
    have hils : i < (entryEncs es).length := by rw [entryEncs_length]; exact hi
    have hgetd := entryEncs_getD es i hi
    -- decompose the block data around entry i
    have hsplit : (blockOf es).data =
        ((entryEncs es).take i).flatten ++
          ((entryEncs es).getD i [] ++ ((entryEncs es).drop (i + 1)).flatten) := by
      conv_lhs => rw [blockOf]
      show (entryEncs es).flatten = _
      conv_lhs => rw [← List.take_append_drop i (entryEncs es),
        List.drop_eq_getElem_cons hils]
      rw [List.flatten_append, List.flatten_cons,
        List.getD_eq_getElem (entryEncs es) [] hils]
    have hprelen : ((entryEncs es).take i).flatten.length =
        (((entryEncs es).take i).map List.length).sum := List.length_flatten _
    -- the recorded offset is the length of the preceding data
    have hoff : (blockOf es).offsets.getD i 0 =
        ((entryEncs es).take i).flatten.length := by
      have h1 : (blockOf es).offsets.getD i 0 =
          (0 + (((entryEncs es).take i).map List.length).sum) % 65536 := by
        simp only [blockOf]
        exact offsetsFrom_getD (entryEncs es) i 0 hils
      have h2 : (((entryEncs es).take i).map List.length).sum ≤
          ((entryEncs es).map List.length).sum := by
        rw [List.map_take]
        exact sum_take_le _ i
      have h3 : ((entryEncs es).map List.length).sum =
          (blockOf es).data.length := by
        simp [blockOf, List.length_flatten]
      rw [h1, hprelen, Nat.zero_add, Nat.mod_eq_of_lt (by omega)]
    -- size bounds for entry i
    have hmemi : (entryEncs es).getD i [] ∈ entryEncs es := by
      rw [List.getD_eq_getElem (entryEncs es) [] hils]
      exact List.getElem_mem hils
    have henclen : ((entryEncs es).getD i []).length ≤ (blockOf es).data.length :=
      length_le_flatten_of_mem hmemi
    have hkl : (es.getD i dEntry).1.bytes.length -
        compute_overlap (if i = 0 then (⟨[], 0⟩ : KeyT) else headKeyOf es).bytes
          (es.getD i dEntry).1.bytes < 65536 := by
      have := entryEnc_length (if i = 0 then ⟨[], 0⟩ else headKeyOf es)
        (es.getD i dEntry)
      rw [← hgetd] at this
      omega
    have hvl : (es.getD i dEntry).2.length < 65536 := by
      have := entryEnc_length (if i = 0 then ⟨[], 0⟩ else headKeyOf es)
        (es.getD i dEntry)
      rw [← hgetd] at this
      omega
    have htsi : (es.getD i dEntry).1.ts < 18446744073709551616 := by
      apply hts
      rw [List.getD_eq_getElem es dEntry hi]
      exact List.getElem_mem hi
    have hov65 : compute_overlap
        (if i = 0 then (⟨[], 0⟩ : KeyT) else headKeyOf es).bytes
        (es.getD i dEntry).1.bytes < 65536 := by
      by_cases h0 : i = 0
      · simp [h0, compute_overlap_nil_left]
      · rw [if_neg h0]
        have h1 := compute_overlap_le_left (headKeyOf es).bytes
          (es.getD i dEntry).1.bytes
        have : (headKeyOf es).bytes.length < 65536 := by
          simpa [hes, headKeyOf] using hlen0
        omega
    have hfktake : it.first_key.bytes.take
        (compute_overlap (if i = 0 then (⟨[], 0⟩ : KeyT) else headKeyOf es).bytes
          (es.getD i dEntry).1.bytes) =
        (es.getD i dEntry).1.bytes.take
          (compute_overlap (if i = 0 then (⟨[], 0⟩ : KeyT) else headKeyOf es).bytes
            (es.getD i dEntry).1.bytes) := by
      by_cases h0 : i = 0
      · simp [h0, compute_overlap_nil_left]
      · rw [if_neg h0, hfk]
        have : (headKeyOf es).bytes = e0.1.bytes := by simp [hes, headKeyOf]
        rw [← this]
        exact compute_overlap_take _ _
    -- apply the decode lemma
    have hinrange : i < it.block.offsets.length := by
      rw [hb, blockOf_offsets_length]; exact hi
    have hdata : it.block.data = ((entryEncs es).take i).flatten ++
        (entryEnc (if i = 0 then ⟨[], 0⟩ else headKeyOf es) (es.getD i dEntry) ++
          ((entryEncs es).drop (i + 1)).flatten) := by
      rw [hb, hsplit, hgetd]
    have hspec := seek_to_offset_spec it (((entryEncs es).take i).flatten)
      (((entryEncs es).drop (i + 1)).flatten)
      (if i = 0 then ⟨[], 0⟩ else headKeyOf es) (es.getD i dEntry)
      hdata hfktake hov65 hkl hvl htsi
    have hoff' : it.block.offsets.getD i 0 = ((entryEncs es).take i).flatten.length := by
      rw [hb]; exact hoff
    rw [seek_to_in it i hinrange, hoff']
    refine ⟨hspec.1, ?_, rfl, rfl, rfl⟩
    have : BlockIterator.value
        { it.seek_to_offset ((entryEncs es).take i).flatten.length with idx := i } =
        BlockIterator.value (it.seek_to_offset ((entryEncs es).take i).flatten.length) := rfl
    rw [this]
    exact hspec.2

/-- Iterating a built block from index `i` yields exactly the remaining
entries. -/
theorem collect_blockOf (es : List EntryT)
    (hsize : (blockOf es).data.length < 65536)
    (hts : ∀ e ∈ es, e.1.ts < 18446744073709551616)
    (hkeys : ∀ e ∈ es, e.1.bytes ≠ []) :
    ∀ (fuel i : Nat) (it : BlockIterator), it.block = blockOf es →
      it.first_key = (blockOf es).get_first_key →
      es.length - i ≤ fuel →
      collectEntries (it.seek_to i) fuel = es.drop i := by
  intro fuel
  induction fuel with
  | zero =>
    intro i it hb hf hfuel
    rw [List.drop_eq_nil_of_le (by omega)]
    rfl
  | succ fuel ih =>
    intro i it hb hf hfuel
    by_cases hi : i < es.length
    · have hspec := blockOf_seek_to_spec es i hi hsize hts it hb hf
      have hkeyne : (es.getD i dEntry).1.bytes ≠ [] := by
        apply hkeys
        rw [List.getD_eq_getElem es dEntry hi]
        exact List.getElem_mem hi
      have hvalid : (it.seek_to i).key.bytes ≠ [] := by rw [hspec.1]; exact hkeyne
      rw [collectEntries, if_neg hvalid]
      have hnext : (it.seek_to i).next =
          { it.seek_to i with idx := (it.seek_to i).idx + 1 }.seek_to
            ((it.seek_to i).idx + 1) := rfl
      have hidx : (it.seek_to i).idx = i := hspec.2.2.1
      have hb' : ({ it.seek_to i with idx := (it.seek_to i).idx + 1 }
          : BlockIterator).block = blockOf es := by
        show (it.seek_to i).block = blockOf es
        rw [hspec.2.2.2.1, hb]
      have hf' : ({ it.seek_to i with idx := (it.seek_to i).idx + 1 }
          : BlockIterator).first_key = (blockOf es).get_first_key := by
        show (it.seek_to i).first_key = (blockOf es).get_first_key
        rw [hspec.2.2.2.2, hf]
      have hrec := ih (i + 1)
        { it.seek_to i with idx := (it.seek_to i).idx + 1 } hb' hf' (by omega)
      simp only [hidx] at hrec
      rw [BlockIterator.next, hidx, hrec]
      rw [hspec.1, hspec.2.1]
      rw [List.drop_eq_getElem_cons hi, List.getD_eq_getElem es dEntry hi]
    · have hout : it.block.offsets.length ≤ i := by
        rw [hb, blockOf_offsets_length]; omega
      rw [seek_to_out it i hout]
      rw [List.drop_eq_nil_of_le (by omega)]
      rfl

/-- Claim C1 (amended): for every sorted sequence of non-empty-key entries
all accepted by one `BlockBuilder`, **provided the accumulated entry data
fits the `u16` offset space (below 65536 bytes) and every version stamp is
a `u64` value**, building the block and iterating with
`create_and_seek_to_first` followed by repeated `next()` yields exactly the
same sequence of (key, version stamp, value) tuples, each key being
reconstructed as `first_key[..overlap_len] ++ rest_key`. -/
theorem block_roundtrip (B : Nat) (es : List EntryT) (b : BlockBuilder)
    (blk : Block) (fuel : Nat)
    (hadd : addAll (BlockBuilder.new B) es = some b)
    (hsorted : (es.map Prod.fst).Pairwise keyLE)
    (hts : ∀ e ∈ es, e.1.ts < 18446744073709551616)
    (hsize : b.data.length < 65536)
    (hbuild : b.build = some blk)
    (hfuel : es.length ≤ fuel) :
    collectEntries (BlockIterator.create_and_seek_to_first blk) fuel = es := by
  have hb : b = builderOf B es := by
    apply addAll_builderOf B es [] b (Or.inl rfl)
    rw [builderOf_nil]; exact hadd
  have hne : es ≠ [] := by
    intro h
    subst h
    rw [hb] at hbuild
    simp [builderOf_nil, BlockBuilder.build, BlockBuilder.new,
      BlockBuilder.is_empty] at hbuild
  have hblk : blk = blockOf es := by
    have := build_builderOf B es hne
    rw [hb, this] at hbuild
    exact (Option.some_inj.mp hbuild).symm
  have hsize' : (blockOf es).data.length < 65536 := by
    have : (builderOf B es).data = (blockOf es).data := rfl
    rw [hb, this] at hsize
    exact hsize
  have hkeys := addAll_keys_nonempty es (BlockBuilder.new B) b hadd
  have := collect_blockOf es hsize' hts hkeys fuel 0
    (BlockIterator.new (blockOf es)) rfl rfl (by omega)
  rw [hblk]
  simpa [BlockIterator.create_and_seek_to_first, BlockIterator.seek_to_first]
    using this

/-- The spec's worked example: entries ("apple", ts 7, "1") then
("apply", ts 3, "2"). -/
def rtEntries : List EntryT :=
  [(⟨[97, 112, 112, 108, 101], 7⟩, [49]), (⟨[97, 112, 112, 108, 121], 3⟩, [50])]

/-- Witness for C1's amended round-trip theorem on the spec's
"apple"/"apply" example. -/
theorem block_roundtrip_witness :
    addAll (BlockBuilder.new 100) rtEntries = some (builderOf 100 rtEntries) ∧
    (builderOf 100 rtEntries).build = some (blockOf rtEntries) ∧
    collectEntries (BlockIterator.create_and_seek_to_first (blockOf rtEntries)) 3 =
      rtEntries :=
  ⟨by decide, by decide,
    block_roundtrip 100 rtEntries (builderOf 100 rtEntries) (blockOf rtEntries) 3
      (by decide) (by decide) (by decide) (by decide) (by decide) (by decide)⟩

/-- The oversized-value entry refuting claim C1 as stated: its value length
65536 is written as `65536 % 65536 = 0` in the u16 value-length field. -/
def overflowEntry : EntryT := (⟨[0], 0⟩, List.replicate 65536 0)

/-- Unfolding one step of the collection loop. -/
theorem collectEntries_succ (it : BlockIterator) (fuel : Nat) :
    collectEntries it (fuel + 1) =
      if it.key.bytes = [] then []
      else (it.key, it.value) :: collectEntries it.next fuel := rfl

/-- A single nonempty-key entry is always accepted by a fresh builder. -/
theorem addAll_single (B : Nat) (e : EntryT) (hk : e.1.bytes ≠ []) :
    addAll (BlockBuilder.new B) [e] = some (builderOf B [e]) := by
  have hne : ¬((BlockBuilder.new B).estimated_size + e.1.raw_len + e.2.length +
      SIZEOF_U16 * 3 > (BlockBuilder.new B).block_size ∧
      (BlockBuilder.new B).is_empty = false) := by
    rintro ⟨-, h2⟩
    simp [BlockBuilder.new, BlockBuilder.is_empty] at h2
  simp only [addAll, BlockBuilder.add, if_neg hk, if_neg hne]
  simp [builderOf, entryEncs, entryEnc, offsetsFrom, headKeyOf,
    BlockBuilder.new, List.append_assoc]

theorem overflowEntry_data : (blockOf [overflowEntry]).data =
    [0, 0, 0, 1, 0, 0, 0, 0, 0, 0, 0, 0, 0, 0, 0] ++ List.replicate 65536 0 := by
  have hlen : (List.replicate 65536 (0 : Nat)).length = 65536 :=
    List.length_replicate 65536 0
  simp only [blockOf, entryEncs, entryEnc, overflowEntry,
    compute_overlap_nil_left]
  generalize hR : List.replicate 65536 (0 : Nat) = R at hlen ⊢
  simp [putU16, putU64, hlen]

theorem overflowEntry_offsets : (blockOf [overflowEntry]).offsets = [0] := by
  simp only [blockOf, entryEncs, offsetsFrom]

/-- Counterexample to claim C1 as stated: the single (hence sorted,
unconditionally accepted, non-empty-key) entry with a 65536-byte value
round-trips to the empty value, because the value length is truncated to a
`u16`. -/
theorem overflow_iter_general (R : List Nat) :
    BlockIterator.create_and_seek_to_first
      ⟨[0, 0, 0, 1, 0, 0, 0, 0, 0, 0, 0, 0, 0, 0, 0] ++ R, [0]⟩ =
      { block := ⟨[0, 0, 0, 1, 0, 0, 0, 0, 0, 0, 0, 0, 0, 0, 0] ++ R, [0]⟩,
        key := ⟨[0], 0⟩, value_range := (15, 15), idx := 0,
        first_key := ⟨[0], 0⟩ } := by
  simp only [BlockIterator.create_and_seek_to_first, BlockIterator.seek_to_first,
    BlockIterator.new, BlockIterator.seek_to, BlockIterator.seek_to_offset,
    Block.get_first_key, getU16, getU64, byteAt, SIZEOF_U16, List.cons_append,
    List.drop_succ_cons, List.drop_zero, List.getD_cons_zero,
    List.getD_cons_succ, List.take_succ_cons, List.take_zero, Nat.zero_mul,
    Nat.zero_add, Nat.add_zero, Nat.mul_zero, List.length_cons, List.length_nil]
  norm_num

theorem overflow_collect_general (R : List Nat) :
    collectEntries (BlockIterator.create_and_seek_to_first
      ⟨[0, 0, 0, 1, 0, 0, 0, 0, 0, 0, 0, 0, 0, 0, 0] ++ R, [0]⟩) 2 =
      [(⟨[0], 0⟩, [])] := by
  rw [overflow_iter_general]
  rw [show (2 : Nat) = 1 + 1 from rfl, collectEntries_succ]
  rw [if_neg (by simp)]
  have hval : BlockIterator.value
      { block := ⟨[0, 0, 0, 1, 0, 0, 0, 0, 0, 0, 0, 0, 0, 0, 0] ++ R, [0]⟩,
        key := (⟨[0], 0⟩ : KeyT), value_range := (15, 15), idx := 0,
        first_key := (⟨[0], 0⟩ : KeyT) } = [] := by
    simp [BlockIterator.value]
  have hnext : BlockIterator.next
      { block := ⟨[0, 0, 0, 1, 0, 0, 0, 0, 0, 0, 0, 0, 0, 0, 0] ++ R, [0]⟩,
        key := (⟨[0], 0⟩ : KeyT), value_range := (15, 15), idx := 0,
        first_key := (⟨[0], 0⟩ : KeyT) } =
      { block := ⟨[0, 0, 0, 1, 0, 0, 0, 0, 0, 0, 0, 0, 0, 0, 0] ++ R, [0]⟩,
        key := ⟨[], 0⟩, value_range := (0, 0), idx := 1,
        first_key := ⟨[0], 0⟩ } := by
    simp [BlockIterator.next, BlockIterator.seek_to]
  rw [hval, hnext, show (1 : Nat) = 0 + 1 from rfl, collectEntries_succ,
    if_pos rfl]

/-- Counterexample to claim C1 as stated: the single (hence sorted,
unconditionally accepted, non-empty-key) entry with a 65536-byte value
round-trips to the empty value, because the value length is truncated to a
`u16`. -/
theorem block_roundtrip_cex :
    addAll (BlockBuilder.new 1000000) [overflowEntry] =
      some (builderOf 1000000 [overflowEntry]) ∧
    ([overflowEntry].map Prod.fst).Pairwise keyLE ∧
    (builderOf 1000000 [overflowEntry]).build = some (blockOf [overflowEntry]) ∧
    collectEntries (BlockIterator.create_and_seek_to_first
      (blockOf [overflowEntry])) 2 = [(⟨[0], 0⟩, [])] ∧
    [((⟨[0], 0⟩ : KeyT), ([] : List Nat))] ≠ [overflowEntry] := by
  have hblk : blockOf [overflowEntry] =
      ⟨[0, 0, 0, 1, 0, 0, 0, 0, 0, 0, 0, 0, 0, 0, 0] ++ List.replicate 65536 0,
        [0]⟩ := by
    conv_lhs => rw [show blockOf [overflowEntry] =
      ⟨(blockOf [overflowEntry]).data, (blockOf [overflowEntry]).offsets⟩ from rfl]
    rw [overflowEntry_data, overflowEntry_offsets]
  have hcollect : collectEntries (BlockIterator.create_and_seek_to_first
      (blockOf [overflowEntry])) 2 = [(⟨[0], 0⟩, [])] := by
    rw [hblk]
    exact overflow_collect_general (List.replicate 65536 0)
  refine ⟨addAll_single 1000000 overflowEntry (by decide), by decide,
    build_builderOf 1000000 [overflowEntry] (by simp), hcollect, ?_⟩
  intro h
  have h1 : (([] : List Nat)) = List.replicate 65536 0 :=
    congrArg (fun l => (l.getD 0 dEntry).2) h
  have h2 := congrArg List.length h1
  rw [List.length_replicate] at h2
  simp at h2

/-! ### Claim C3: seek_to_key binary search -/

/-- The key decoded at index `i` of a block (empty sentinel past the end). -/
def decodeKeyAt (b : Block) (i : Nat) : KeyT := ((BlockIterator.new b).seek_to i).key

/-- The decoded keys of a block, in index order. -/
def blockKeys (b : Block) : List KeyT :=
  (List.range b.offsets.length).map (decodeKeyAt b)

theorem seek_to_block (it : BlockIterator) (i : Nat) :
    (it.seek_to i).block = it.block := by
  unfold BlockIterator.seek_to
  split <;> rfl

theorem seek_to_first_key_eq (it : BlockIterator) (i : Nat) :
    (it.seek_to i).first_key = it.first_key := by
  unfold BlockIterator.seek_to
  split <;> rfl

theorem seek_to_idx_in (it : BlockIterator) (i : Nat)
    (h : i < it.block.offsets.length) : (it.seek_to i).idx = i := by
  rw [seek_to_in it i h]

/-- The decoded key at an in-range index depends only on the block and the
first key, not on the rest of the iterator state. -/
theorem seek_to_key_congr (it : BlockIterator) (b : Block) (i : Nat)
    (hb : it.block = b) (hf : it.first_key = b.get_first_key)
    (hi : i < b.offsets.length) :
    (it.seek_to i).key = decodeKeyAt b i := by
  unfold decodeKeyAt
  have h1 : i < it.block.offsets.length := by rw [hb]; exact hi
  have h2 : i < (BlockIterator.new b).block.offsets.length := hi
  rw [seek_to_in it i h1, seek_to_in (BlockIterator.new b) i h2]
  show (BlockIterator.seek_to_offset it _).key = _
  simp only [BlockIterator.seek_to_offset, BlockIterator.new, hb, hf]

theorem keyLE_of_keyLT {a b : KeyT} (h : keyLT a b) : keyLE a b := by
  unfold keyLT at h
  unfold keyLE
  rw [h]
  simp

theorem keyLT_of_gt {a b : KeyT} (h : compareKey a b = .gt) : keyLT b a := by
  unfold keyLT
  rw [compareKey_swap, h]
  rfl

theorem is_valid_iff (it : BlockIterator) :
    it.is_valid = true ↔ it.key.bytes ≠ [] := by
  simp [BlockIterator.is_valid, List.isEmpty_iff]

/-- The terminal step of the binary-search loop (`low ≥ high`). -/
theorem seekToKeyLoop_final (b : Block) (target : KeyT) (low high : Nat)
    (it : BlockIterator) (hnl : ¬ low < high)
    (hb : it.block = b) (hf : it.first_key = b.get_first_key)
    (hlow : ∀ j, j < low → keyLT (decodeKeyAt b j) target)
    (hup : ∀ j, high ≤ j → j < b.offsets.length → keyLE target (decodeKeyAt b j)) :
    (it.seek_to low).idx < b.offsets.length ∧
      (it.seek_to low).key = decodeKeyAt b (it.seek_to low).idx ∧
      keyLE target (decodeKeyAt b (it.seek_to low).idx) ∧
      (∀ j, j < (it.seek_to low).idx → keyLT (decodeKeyAt b j) target) ∨
    ((it.seek_to low).key.bytes = [] ∧
      ∀ j, j < b.offsets.length → keyLT (decodeKeyAt b j) target) := by
  by_cases hn : low < b.offsets.length
  · left
    have hidx : (it.seek_to low).idx = low :=
      seek_to_idx_in it low (by rw [hb]; exact hn)
    refine ⟨by rw [hidx]; exact hn, ?_, ?_, ?_⟩
    · rw [hidx]
      exact seek_to_key_congr it b low hb hf hn
    · rw [hidx]
      exact hup low (by omega) hn
    · intro j hj
      rw [hidx] at hj
      exact hlow j hj
  · right
    have hout : it.block.offsets.length ≤ low := by rw [hb]; omega
    rw [seek_to_out it low hout]
    exact ⟨rfl, fun j hj => hlow j (by omega)⟩

/-- Loop invariant of `seekToKeyLoop`: given enough fuel it converges to
the first index whose key is ≥ the target (or past the end when the target
exceeds every key). -/
theorem seekToKeyLoop_spec (b : Block) (target : KeyT)
    (hnon : ∀ i, i < b.offsets.length → (decodeKeyAt b i).bytes ≠ [])
    (hlt2 : ∀ j i, j < i → i < b.offsets.length →
      keyLT (decodeKeyAt b j) (decodeKeyAt b i)) :
    ∀ (fuel low high : Nat) (it : BlockIterator),
      high - low < fuel →
      it.block = b → it.first_key = b.get_first_key →
      high ≤ b.offsets.length →
      (∀ j, j < low → keyLT (decodeKeyAt b j) target) →
      (∀ j, high ≤ j → j < b.offsets.length → keyLE target (decodeKeyAt b j)) →
      (∃ it', seekToKeyLoop it target low high fuel = some it' ∧
        it'.idx < b.offsets.length ∧ it'.key = decodeKeyAt b it'.idx ∧
        keyLE target (decodeKeyAt b it'.idx) ∧
        ∀ j, j < it'.idx → keyLT (decodeKeyAt b j) target) ∨
      (∃ it', seekToKeyLoop it target low high fuel = some it' ∧
        it'.key.bytes = [] ∧
        ∀ j, j < b.offsets.length → keyLT (decodeKeyAt b j) target) := by
  intro fuel
  induction fuel with
  | zero =>
    intro low high it hd hb hf hhigh hlow hup
    omega
  | succ fuel ih =>
    intro low high it hd hb hf hhigh hlow hup
    by_cases hlt : low < high
    · rw [seekToKeyLoop, if_pos hlt]
      have hmidlt : low + (high - low) / 2 < high := by omega
      have hmidn : low + (high - low) / 2 < b.offsets.length := by omega
      have hkey : (it.seek_to (low + (high - low) / 2)).key =
          decodeKeyAt b (low + (high - low) / 2) :=
        seek_to_key_congr it b _ hb hf hmidn
      rw [if_neg (by rw [hkey]; exact hnon _ hmidn)]
      have hb' : (it.seek_to (low + (high - low) / 2)).block = b := by
        rw [seek_to_block, hb]
      have hf' : (it.seek_to (low + (high - low) / 2)).first_key =
          b.get_first_key := by
        rw [seek_to_first_key_eq, hf]
      rcases hcmp : compareKey (it.seek_to (low + (high - low) / 2)).key target with
        _ | _ | _
      · -- probe key < target: search the upper half
        simp only
        have hmidlt' : keyLT (decodeKeyAt b (low + (high - low) / 2)) target := by
          rw [← hkey]; exact hcmp
        refine ih (low + (high - low) / 2 + 1) high _ (by omega) hb' hf' hhigh
          ?_ hup
        intro j hj
        rcases Nat.lt_or_ge j (low + (high - low) / 2) with h' | h'
        · exact keyLT_trans (hlt2 j _ h' hmidn) hmidlt'
        · have : j = low + (high - low) / 2 := by omega
          rw [this]
          exact hmidlt'
      · -- probe key = target: found
        simp only
        left
        refine ⟨it.seek_to (low + (high - low) / 2), rfl, ?_, ?_, ?_, ?_⟩
        · rw [seek_to_idx_in it _ (by rw [hb]; exact hmidn)]
          exact hmidn
        · rw [seek_to_idx_in it _ (by rw [hb]; exact hmidn)]
          exact hkey
        · rw [seek_to_idx_in it _ (by rw [hb]; exact hmidn)]
          have : decodeKeyAt b (low + (high - low) / 2) = target := by
            rw [← hkey]
            exact (compareKey_eq_iff _ _).mp hcmp
          rw [this]
          exact keyLE_refl target
        · intro j hj
          rw [seek_to_idx_in it _ (by rw [hb]; exact hmidn)] at hj
          have : decodeKeyAt b (low + (high - low) / 2) = target := by
            rw [← hkey]
            exact (compareKey_eq_iff _ _).mp hcmp
          rw [← this]
          exact hlt2 j _ hj hmidn
      · -- probe key > target: search the lower half
        simp only
        have htlt : keyLT target (decodeKeyAt b (low + (high - low) / 2)) := by
          rw [← hkey]
          exact keyLT_of_gt hcmp
        refine ih low (low + (high - low) / 2) _ (by omega) hb' hf'
          (by omega) hlow ?_
        intro j hj hjn
        rcases Nat.lt_or_ge (low + (high - low) / 2) j with h' | h'
        · exact keyLE_of_keyLT (keyLT_trans htlt (hlt2 _ j h' hjn))
        · have : j = low + (high - low) / 2 := by omega
          rw [this]
          exact keyLE_of_keyLT htlt
    · rw [seekToKeyLoop, if_neg hlt]
      rcases seekToKeyLoop_final b target low high it hlt hb hf hlow hup with h | h
      · exact Or.inl ⟨it.seek_to low, rfl, h⟩
      · exact Or.inr ⟨it.seek_to low, rfl, h⟩

theorem blockKeys_getElem_lt (b : Block)
    (hsorted : (blockKeys b).Pairwise keyLT) :
    ∀ j i, j < i → i < b.offsets.length →
      keyLT (decodeKeyAt b j) (decodeKeyAt b i) := by
  intro j i hji hi
  have hj : j < b.offsets.length := by omega
  have h := List.pairwise_iff_getElem.mp hsorted j i
    (by simpa [blockKeys] using hj) (by simpa [blockKeys] using hi) hji
  simpa [blockKeys] using h

/-- Claim C3 (amended): for every block whose decoded entries are
**strictly** sorted by the key ordering (raw bytes ascending, version stamp
descending, no duplicate entries) and have non-empty keys, `seek_to_key`
positions the iterator on the first entry whose key is ≥ the target, and
leaves it invalid exactly when the target exceeds every key in the block. -/
theorem seek_to_key_lower_bound (b : Block) (target : KeyT)
    (hnon : ∀ i, i < b.offsets.length → (decodeKeyAt b i).bytes ≠ [])
    (hsorted : (blockKeys b).Pairwise keyLT) :
    ∃ it', BlockIterator.create_and_seek_to_key b target = some it' ∧
      (it'.is_valid = true ↔
        ∃ i, i < b.offsets.length ∧ keyLE target (decodeKeyAt b i)) ∧
      (it'.is_valid = true → it'.idx < b.offsets.length ∧
        it'.key = decodeKeyAt b it'.idx ∧ keyLE target (decodeKeyAt b it'.idx) ∧
        ∀ j, j < it'.idx → keyLT (decodeKeyAt b j) target) ∧
      (it'.is_valid = false →
        ∀ j, j < b.offsets.length → keyLT (decodeKeyAt b j) target) := by
  have hlt2 := blockKeys_getElem_lt b hsorted
  have hspec := seekToKeyLoop_spec b target hnon hlt2
    (b.offsets.length + 1) 0 b.offsets.length (BlockIterator.new b)
    (by omega) rfl rfl (le_refl _) (by omega) (by omega)
  have hdef : BlockIterator.create_and_seek_to_key b target =
      seekToKeyLoop (BlockIterator.new b) target 0 b.offsets.length
        (b.offsets.length + 1) := rfl
  rcases hspec with ⟨it', heq, hidx, hkey, hge, hbelow⟩ | ⟨it', heq, hempty, hall⟩
  · refine ⟨it', by rw [hdef]; exact heq, ?_, ?_, ?_⟩
    · constructor
      · intro _
        exact ⟨it'.idx, hidx, hge⟩
      · intro _
        rw [is_valid_iff, hkey]
        exact hnon it'.idx hidx
    · intro _
      exact ⟨hidx, hkey, hge, hbelow⟩
    · intro hinvalid
      have : it'.is_valid = true := by
        rw [is_valid_iff, hkey]
        exact hnon it'.idx hidx
      rw [this] at hinvalid
      simp at hinvalid
  · refine ⟨it', by rw [hdef]; exact heq, ?_, ?_, ?_⟩
    · constructor
      · intro hvalid
        rw [is_valid_iff] at hvalid
        exact absurd hempty hvalid
      · rintro ⟨i, hi, hle⟩
        exact absurd (hall i hi) ((keyLE_iff_not_keyLT target _).mp hle)
    · intro hvalid
      rw [is_valid_iff] at hvalid
      exact absurd hempty hvalid
    · intro _ j hj
      exact hall j hj

/-- Entries for the C3 witness: keys [1] (stamp 5) and [2] (stamp 9). -/
def sbEntries : List EntryT := [(⟨[1], 5⟩, [7]), (⟨[2], 9⟩, [8])]

/-- Witness for C3's amended theorem: a two-entry strictly sorted block. -/
theorem seek_to_key_lower_bound_witness :
    ((∀ i, i < (blockOf sbEntries).offsets.length →
        (decodeKeyAt (blockOf sbEntries) i).bytes ≠ []) ∧
      (blockKeys (blockOf sbEntries)).Pairwise keyLT) ∧
    (∃ it', BlockIterator.create_and_seek_to_key (blockOf sbEntries) ⟨[2], 20⟩ =
        some it' ∧
      (it'.is_valid = true ↔ ∃ i, i < (blockOf sbEntries).offsets.length ∧
        keyLE ⟨[2], 20⟩ (decodeKeyAt (blockOf sbEntries) i)) ∧
      (it'.is_valid = true → it'.idx < (blockOf sbEntries).offsets.length ∧
        it'.key = decodeKeyAt (blockOf sbEntries) it'.idx ∧
        keyLE ⟨[2], 20⟩ (decodeKeyAt (blockOf sbEntries) it'.idx) ∧
        ∀ j, j < it'.idx → keyLT (decodeKeyAt (blockOf sbEntries) j) ⟨[2], 20⟩) ∧
      (it'.is_valid = false → ∀ j, j < (blockOf sbEntries).offsets.length →
        keyLT (decodeKeyAt (blockOf sbEntries) j) ⟨[2], 20⟩)) :=
  ⟨⟨by decide, by decide⟩,
    seek_to_key_lower_bound (blockOf sbEntries) ⟨[2], 20⟩ (by decide) (by decide)⟩

/-- Entries with a duplicated key refuting claim C3 as stated. -/
def dupEntries : List EntryT := [(⟨[1], 0⟩, []), (⟨[1], 0⟩, [])]

/-- Counterexample to claim C3 as stated: a block of two identical entries
is sorted (non-strictly) by the key ordering, yet `seek_to_key` for that
very key stops at index 1, not at the first entry ≥ the target (index 0). -/
theorem seek_to_key_cex :
    addAll (BlockBuilder.new 100) dupEntries = some (builderOf 100 dupEntries) ∧
    (blockKeys (blockOf dupEntries)).Pairwise keyLE ∧
    (∀ i, i < (blockOf dupEntries).offsets.length →
      (decodeKeyAt (blockOf dupEntries) i).bytes ≠ []) ∧
    ((BlockIterator.create_and_seek_to_key (blockOf dupEntries) ⟨[1], 0⟩).map
      BlockIterator.idx) = some 1 ∧
    keyLE ⟨[1], 0⟩ (decodeKeyAt (blockOf dupEntries) 0) := by
  refine ⟨by decide, by decide, by decide, by decide, by decide⟩

/-! ### Leveled compaction controller (`src/compact/leveled.rs`) -/

structure LeveledCompactionTask where
  upper_level : Option Nat
  upper_level_sst_ids : List Nat
  lower_level : Nat
  lower_level_sst_ids : List Nat
  is_lower_level_bottom_level : Bool
deriving DecidableEq

structure LeveledCompactionOptions where
  level_size_multiplier : Nat
  level0_file_num_compaction_trigger : Nat
  max_levels : Nat
  base_level_size_mb : Nat
deriving DecidableEq

/-- SST table metadata, per the collaborator contract (`first_key()`,
`last_key()`, `table_size()`). -/
structure SstMeta where
  first_key : KeyT
  last_key : KeyT
  table_size : Nat
deriving DecidableEq

/-- `LsmStorageState` as consumed by the controller: the L0 id list, the
per-level id lists (`levels[i] = (level_number, ids)` for level `i+1`), and
the id → metadata map.  The `HashMap` is modelled as a partial function;
`none` lookups correspond to the source's panicking `[id]`/`unwrap()`
accesses. -/
structure LsmStorageState where
  l0_sstables : List Nat
  levels : List (Nat × List Nat)
  sstables : Nat → Option SstMeta

/-- Stable insertion sort, modelling Rust's stable `sort_by`.  The theorems
proved below never depend on the relative order of comparator-equal
elements, which is the only way a different stable sort could differ. -/
def insertBy {α : Type} (le : α → α → Bool) (x : α) : List α → List α
  | [] => [x]
  | y :: ys => if le x y then x :: y :: ys else y :: insertBy le x ys

def sortBy {α : Type} (le : α → α → Bool) : List α → List α
  | [] => []
  | x :: xs => insertBy le x (sortBy le xs)

/-- `Iterator::min` over keys (first minimum on ties — ties carry equal
values, so the choice is unobservable). -/
def keyMinFold : List KeyT → Option KeyT
  | [] => none
  | k :: ks => some (ks.foldl (fun m x => if compareKey x m = .lt then x else m) k)

/-- `Iterator::max` over keys (last maximum on ties). -/
def keyMaxFold : List KeyT → Option KeyT
  | [] => none
  | k :: ks => some (ks.foldl (fun m x => if compareKey x m = .lt then m else x) k)

/-- Sum of `table_size()` over ids; `none` models the panicking lookup of an
unregistered id.  The `u64` sum is modelled as an exact natural (an overflow
of the machine sum would need ≥ 2^64 bytes of tables). -/
def sizesSum (s : LsmStorageState) : List Nat → Option Nat
  | [] => some 0
  | id :: rest =>
    match s.sstables id, sizesSum s rest with
    | some m, some t => some (m.table_size + t)
    | _, _ => none

/-- The `real_level_size.push(...)` loop of `generate_compaction_task`:
one pushed sum per `i in 0..n`, `none` on an unregistered id. -/
def levelSizesUpTo (s : LsmStorageState) : Nat → Option (List Nat)
  | 0 => some []
  | n + 1 =>
    match levelSizesUpTo s n, sizesSum s (s.levels.getD n (0, [])).2 with
    | some l, some v => some (l ++ [v])
    | _, _ => none

/-- The `real_level_size` vector of `generate_compaction_task`. -/
def realSizes (opts : LeveledCompactionOptions) (s : LsmStorageState) :
    Option (List Nat) :=
  levelSizesUpTo s opts.max_levels

/-- One iteration of the target-size / base-level loop of
`generate_compaction_task`: `target[i] = target[i+1] / multiplier` when
`target[i+1] > base_bytes`, and `base_level = i + 1` whenever
`target[i] > 0`.  The source computes
`next_level_size / self.options.level_size_multiplier` unconditionally,
so a zero multiplier panics at the integer division (in every iteration);
`none` models that panic. -/
def targetsStep (opts : LeveledCompactionOptions) (acc : List Nat × Nat)
    (i : Nat) : Option (List Nat × Nat) :=
  let base_bytes := opts.base_level_size_mb * 1024 * 1024
  let next_level_size := acc.1.getD (i + 1) 0
  if opts.level_size_multiplier = 0 then none
  else
    let this_level_size := next_level_size / opts.level_size_multiplier
    let t' := if base_bytes < next_level_size then acc.1.set i this_level_size
      else acc.1
    some (t', if 0 < t'.getD i 0 then i + 1 else acc.2)

def targetsLoop (opts : LeveledCompactionOptions) (init : List Nat × Nat)
    (k : Nat) : Option (List Nat × Nat) :=
  (List.range k).reverse.foldl
    (fun acc i => acc.bind (fun a => targetsStep opts a i)) (some init)

/-- The target-size / base-level computation of `generate_compaction_task`:
`target[max-1] = max(real[max-1], base_bytes)`, then the downward loop over
`i` from `max_levels - 2` to `0`.  `none` means the source panics: division
by a zero `level_size_multiplier`, which happens exactly when the loop runs
at least once (`max_levels ≥ 2`). -/
def computeTargets (opts : LeveledCompactionOptions) (real : List Nat) :
    Option (List Nat × Nat) :=
  let base_bytes := opts.base_level_size_mb * 1024 * 1024
  let t0 := (List.replicate opts.max_levels 0).set (opts.max_levels - 1)
    ((real.getD (opts.max_levels - 1) 0).max base_bytes)
  targetsLoop opts (t0, opts.max_levels) (opts.max_levels - 1)

/-- `find_overlapping_ssts`: the merge range is `[min first_key, max
last_key]` of the source tables; a candidate of `in_level` is excluded only
if entirely below or entirely above that range.  `none` models the panics:
`min`/`max` `unwrap` on an empty source list, missing metadata, or an
out-of-range level index. -/
def find_overlapping_ssts (s : LsmStorageState) (sst_ids : List Nat)
    (in_level : Nat) : Option (List Nat) :=
  match sst_ids.mapM (fun id => (s.sstables id).map SstMeta.first_key),
      sst_ids.mapM (fun id => (s.sstables id).map SstMeta.last_key) with
  | some firsts, some lasts =>
    match keyMinFold firsts, keyMaxFold lasts with
    | some begin_key, some end_key =>
      if in_level = 0 ∨ s.levels.length < in_level then none
      else
        match (s.levels.getD (in_level - 1) (0, [])).2.mapM
            (fun id => (s.sstables id).map (fun m => (id, m))) with
        | some pairs =>
          some ((pairs.filter (fun p => decide (¬(keyLT p.2.last_key begin_key ∨
            compareKey p.2.first_key end_key = Ordering.gt)))).map Prod.fst)
        | none => none
    | _, _ => none
  | _, _ => none

/-- The f64 priority value `real / target` modelled as an extended
rational: exact for sizes below 2^53 (where IEEE division preserves the
comparisons used here), with `target = 0` giving +∞ exactly as in the
source.  The NaN case 0.0/0.0 never enters the priority vector because the
push condition `prio > 1.0` is false for it, matching `target < real`. -/
def ratioQ (r t : Nat) : WithTop ℚ := if t = 0 then ⊤ else (((r : ℚ) / (t : ℚ) : ℚ))

/-- The comparator `a.partial_cmp(b).unwrap().reverse()` on `(f64, usize)`
pairs: descending lexicographic order (priority, then level number).
`partial_cmp` is total here since NaN never enters the vector. -/
def prioGE (a b : WithTop ℚ × Nat) : Bool :=
  decide (b.1 < a.1 ∨ (a.1 = b.1 ∧ b.2 ≤ a.2))

/-- `generate_compaction_task`.  The outer `Option` models panics
(impossible level indexing, missing metadata, `unwrap` on empty lists); the
inner `Option` is the source's return value (`None` = nothing to do). -/
def generate_compaction_task (opts : LeveledCompactionOptions)
    (s : LsmStorageState) : Option (Option LeveledCompactionTask) :=
  if opts.max_levels = 0 ∨ s.levels.length < opts.max_levels then none
  else
    match realSizes opts s with
    | none => none
    | some real =>
      match computeTargets opts real with
      | none => none
      | some tb =>
      if opts.level0_file_num_compaction_trigger ≤ s.l0_sstables.length then
        match find_overlapping_ssts s s.l0_sstables tb.2 with
        | none => none
        | some overlap => some (some {
            upper_level := none,
            upper_level_sst_ids := s.l0_sstables,
            lower_level := tb.2,
            lower_level_sst_ids := overlap,
            is_lower_level_bottom_level := decide (tb.2 = opts.max_levels) })
      else
        match (sortBy prioGE ((List.range opts.max_levels).filterMap
            (fun level =>
              if tb.1.getD level 0 < real.getD level 0 then
                some (ratioQ (real.getD level 0) (tb.1.getD level 0), level + 1)
              else none))).head? with
        | none => some none
        | some pl =>
          match (s.levels.getD (pl.2 - 1) (0, [])).2.min? with
          | none => none
          | some selected_sst =>
            match find_overlapping_ssts s [selected_sst] (pl.2 + 1) with
            | none => none
            | some overlap => some (some {
                upper_level := some pl.2,
                upper_level_sst_ids := [selected_sst],
                lower_level := pl.2 + 1,
                lower_level_sst_ids := overlap,
                is_lower_level_bottom_level :=
                  decide (pl.2 + 1 = opts.max_levels) })

/-- The `filter_map` + `HashSet::remove` walk of `apply_compaction_result`:
returns the list with the first occurrence of each set element removed,
together with the set elements that were never found. -/
def removeIds : List Nat → List Nat → List Nat × List Nat
  | [], set => ([], set)
  | x :: xs, set =>
    if x ∈ set then removeIds xs (set.erase x)
    else
      ((x :: (removeIds xs set).1), (removeIds xs set).2)

/-- First key of a table id under an already-checked-resolvable map. -/
def firstKeyD (s : LsmStorageState) (id : Nat) : KeyT :=
  ((s.sstables id).getD ⟨⟨[], 0⟩, ⟨[], 0⟩, 0⟩).first_key

def keyLEb (a b : KeyT) : Bool := decide (keyLE a b)

/-- `apply_compaction_result`: removes the task's upper source ids from L0
or the named upper level, removes the lower source ids from the lower
level, appends `output`, and (outside recovery) re-sorts the lower level by
first key.  `none` models the panics: a source id missing from its claimed
list (`assert!(set.is_empty())`), an out-of-range level, or (in the sort
path) an id with no registered metadata.  Returns the new snapshot and the
removed-file list `upper ++ lower`. -/
def applyUpper (s : LsmStorageState) (task : LeveledCompactionTask) :
    Option LsmStorageState :=
  match task.upper_level with
  | some u =>
    if u = 0 ∨ s.levels.length < u then none
    else
      if (removeIds (s.levels.getD (u - 1) (0, [])).2
          task.upper_level_sst_ids.dedup).2 = [] then
        some { s with levels := (s.levels.set (u - 1)
          ((s.levels.getD (u - 1) (0, [])).1,
            (removeIds (s.levels.getD (u - 1) (0, [])).2
              task.upper_level_sst_ids.dedup).1)) }
      else none
  | none =>
    if (removeIds s.l0_sstables task.upper_level_sst_ids.dedup).2 = [] then
      some { s with l0_sstables :=
        (removeIds s.l0_sstables task.upper_level_sst_ids.dedup).1 }
    else none

def apply_compaction_result (s : LsmStorageState) (task : LeveledCompactionTask)
    (output : List Nat) (in_recovery : Bool) :
    Option (LsmStorageState × List Nat) :=
  match applyUpper s task with
  | none => none
  | some s1 =>
    if task.lower_level = 0 ∨ s.levels.length < task.lower_level then none
    else
      if (removeIds (s1.levels.getD (task.lower_level - 1) (0, [])).2
          task.lower_level_sst_ids.dedup).2 = [] then
        if in_recovery then
          some ({ s1 with levels := (s1.levels.set (task.lower_level - 1)
            ((s1.levels.getD (task.lower_level - 1) (0, [])).1,
              (removeIds (s1.levels.getD (task.lower_level - 1) (0, [])).2
                task.lower_level_sst_ids.dedup).1 ++ output)) },
            task.upper_level_sst_ids ++ task.lower_level_sst_ids)
        else
          if ((removeIds (s1.levels.getD (task.lower_level - 1) (0, [])).2
              task.lower_level_sst_ids.dedup).1 ++ output).all
              (fun id => (s.sstables id).isSome) then
            some ({ s1 with levels := (s1.levels.set (task.lower_level - 1)
              ((s1.levels.getD (task.lower_level - 1) (0, [])).1,
                sortBy (fun x y => keyLEb (firstKeyD s x) (firstKeyD s y))
                  ((removeIds (s1.levels.getD (task.lower_level - 1) (0, [])).2
                    task.lower_level_sst_ids.dedup).1 ++ output))) },
              task.upper_level_sst_ids ++ task.lower_level_sst_ids)
          else none
      else none

theorem insertBy_perm {α : Type} (le : α → α → Bool) (x : α) (l : List α) :
    (insertBy le x l).Perm (x :: l) := by
  induction l with
  | nil => exact List.Perm.refl _
  | cons y ys ih =>
    by_cases h : le x y
    · simp [insertBy, h]
    · simp only [insertBy, if_neg h]
      exact ((ih.cons y).trans (List.Perm.swap x y ys))

theorem sortBy_perm {α : Type} (le : α → α → Bool) (l : List α) :
    (sortBy le l).Perm l := by
  induction l with
  | nil => exact List.Perm.refl _
  | cons x xs ih =>
    exact (insertBy_perm le x (sortBy le xs)).trans (ih.cons x)

theorem mem_insertBy {α : Type} {le : α → α → Bool} {x a : α} {l : List α} :
    a ∈ insertBy le x l ↔ a = x ∨ a ∈ l := by
  constructor
  · intro h
    have := (insertBy_perm le x l).mem_iff.mp h
    simpa using this
  · intro h
    apply (insertBy_perm le x l).mem_iff.mpr
    simpa using h

theorem insertBy_pairwise {α : Type} {le : α → α → Bool}
    (htot : ∀ a b, le a b = true ∨ le b a = true)
    (htrans : ∀ a b c, le a b = true → le b c = true → le a c = true)
    (x : α) (l : List α) (hl : l.Pairwise (fun a b => le a b = true)) :
    (insertBy le x l).Pairwise (fun a b => le a b = true) := by
  induction l with
  | nil => simp [insertBy]
  | cons y ys ih =>
    rcases List.pairwise_cons.mp hl with ⟨hy, hys⟩
    by_cases h : le x y
    · simp only [insertBy, if_pos h]
      refine List.pairwise_cons.mpr ⟨?_, hl⟩
      intro b hb
      rcases List.mem_cons.mp hb with h' | h'
      · subst h'; exact h
      · exact htrans x y b h (hy b h')
    · simp only [insertBy, if_neg h]
      refine List.pairwise_cons.mpr ⟨?_, ih hys⟩
      intro b hb
      rcases mem_insertBy.mp hb with h' | h'
      · subst h'
        rcases htot b y with h'' | h''
        · exact absurd h'' h
        · exact h''
      · exact hy b h'

theorem sortBy_pairwise {α : Type} {le : α → α → Bool}
    (htot : ∀ a b, le a b = true ∨ le b a = true)
    (htrans : ∀ a b c, le a b = true → le b c = true → le a c = true)
    (l : List α) :
    (sortBy le l).Pairwise (fun a b => le a b = true) := by
  induction l with
  | nil => simp [sortBy]
  | cons x xs ih => exact insertBy_pairwise htot htrans x (sortBy le xs) ih

/-- The fold inside `keyMinFold` returns a minimum. -/
theorem keyMin_foldl_spec :
    ∀ (ks : List KeyT) (acc : KeyT),
      (ks.foldl (fun m x => if compareKey x m = .lt then x else m) acc = acc ∨
        ks.foldl (fun m x => if compareKey x m = .lt then x else m) acc ∈ ks) ∧
      keyLE (ks.foldl (fun m x => if compareKey x m = .lt then x else m) acc) acc ∧
      ∀ x ∈ ks, keyLE (ks.foldl (fun m x => if compareKey x m = .lt then x else m) acc) x := by
  intro ks
  induction ks with
  | nil =>
    intro acc
    exact ⟨Or.inl rfl, keyLE_refl acc, by simp⟩
  | cons y ys ih =>
    intro acc
    simp only [List.foldl_cons]
    rcases ih (if compareKey y acc = .lt then y else acc) with ⟨hmem, hle, hall⟩
    by_cases h : compareKey y acc = .lt
    · rw [if_pos h] at hmem hle hall ⊢
      refine ⟨?_, ?_, ?_⟩
      · rcases hmem with h' | h'
        · right; rw [h']; simp
        · right; simp [h']
      · exact keyLE_trans hle (keyLE_of_keyLT h)
      · intro x hx
        rcases List.mem_cons.mp hx with h' | h'
        · subst h'; exact hle
        · exact hall x h'
    · rw [if_neg h] at hmem hle hall ⊢
      refine ⟨Or.imp_right (List.mem_cons_of_mem y) hmem, hle, ?_⟩
      intro x hx
      rcases List.mem_cons.mp hx with h' | h'
      · subst h'
        have hax : keyLE acc x := by
          rw [keyLE_iff_not_keyLT]
          exact h
        exact keyLE_trans hle hax
      · exact hall x h'

theorem keyMinFold_spec {ks : List KeyT} {m : KeyT} (h : keyMinFold ks = some m) :
    m ∈ ks ∧ ∀ x ∈ ks, keyLE m x := by
  cases ks with
  | nil => simp [keyMinFold] at h
  | cons k rest =>
    simp only [keyMinFold, Option.some_inj] at h
    rcases keyMin_foldl_spec rest k with ⟨hmem, hle, hall⟩
    subst h
    constructor
    · rcases hmem with h' | h'
      · rw [h']; simp
      · simp [h']
    · intro x hx
      rcases List.mem_cons.mp hx with h' | h'
      · subst h'; exact hle
      · exact hall x h'

/-- The fold inside `keyMaxFold` returns a maximum. -/
theorem keyMax_foldl_spec :
    ∀ (ks : List KeyT) (acc : KeyT),
      (ks.foldl (fun m x => if compareKey x m = .lt then m else x) acc = acc ∨
        ks.foldl (fun m x => if compareKey x m = .lt then m else x) acc ∈ ks) ∧
      keyLE acc (ks.foldl (fun m x => if compareKey x m = .lt then m else x) acc) ∧
      ∀ x ∈ ks, keyLE x (ks.foldl (fun m x => if compareKey x m = .lt then m else x) acc) := by
  intro ks
  induction ks with
  | nil =>
    intro acc
    exact ⟨Or.inl rfl, keyLE_refl acc, by simp⟩
  | cons y ys ih =>
    intro acc
    simp only [List.foldl_cons]
    rcases ih (if compareKey y acc = .lt then acc else y) with ⟨hmem, hle, hall⟩
    by_cases h : compareKey y acc = .lt
    · rw [if_pos h] at hmem hle hall ⊢
      refine ⟨Or.imp_right (List.mem_cons_of_mem y) hmem, hle, ?_⟩
      intro x hx
      rcases List.mem_cons.mp hx with h' | h'
      · subst h'
        exact keyLE_trans (keyLE_of_keyLT h) hle
      · exact hall x h'
    · rw [if_neg h] at hmem hle hall ⊢
      refine ⟨?_, ?_, ?_⟩
      · rcases hmem with h' | h'
        · right; rw [h']; simp
        · right; simp [h']
      · have hay : keyLE acc y := by
          rw [keyLE_iff_not_keyLT]
          exact h
        exact keyLE_trans hay hle
      · intro x hx
        rcases List.mem_cons.mp hx with h' | h'
        · subst h'; exact hle
        · exact hall x h'

theorem keyMaxFold_spec {ks : List KeyT} {m : KeyT} (h : keyMaxFold ks = some m) :
    m ∈ ks ∧ ∀ x ∈ ks, keyLE x m := by
  cases ks with
  | nil => simp [keyMaxFold] at h
  | cons k rest =>
    simp only [keyMaxFold, Option.some_inj] at h
    rcases keyMax_foldl_spec rest k with ⟨hmem, hle, hall⟩
    subst h
    constructor
    · rcases hmem with h' | h'
      · rw [h']; simp
      · simp [h']
    · intro x hx
      rcases List.mem_cons.mp hx with h' | h'
      · subst h'; exact hle
      · exact hall x h'

theorem getD_set_ne (l : List Nat) (i j a : Nat) (h : i ≠ j) :
    (l.set i a).getD j 0 = l.getD j 0 := by
  simp [List.getD_eq_getElem?_getD, List.getElem?_set_ne h]

theorem getD_set_self (l : List Nat) (i a : Nat) (h : i < l.length) :
    (l.set i a).getD i 0 = a := by
  simp [List.getD_eq_getElem?_getD, List.getElem?_set_self h]

theorem getD_replicate_zero (n j : Nat) :
    (List.replicate n (0 : Nat)).getD j 0 = 0 := by
  simp only [List.getD_eq_getElem?_getD, List.getElem?_replicate]
  split <;> simp

theorem foldl_bind_none (opts : LeveledCompactionOptions) (l : List Nat) :
    l.foldl (fun acc i => acc.bind (fun a => targetsStep opts a i))
      (none : Option (List Nat × Nat)) = none := by
  induction l with
  | nil => rfl
  | cons x xs ih =>
    simp only [List.foldl_cons]
    exact ih

theorem targetsLoop_succ (opts : LeveledCompactionOptions)
    (init : List Nat × Nat) (k : Nat) :
    targetsLoop opts init (k + 1) =
      (targetsStep opts init k).bind (fun a => targetsLoop opts a k) := by
  have h : (List.range (k + 1)).reverse = k :: (List.range k).reverse := by
    rw [List.range_succ, List.reverse_append]
    rfl
  simp only [targetsLoop, h, List.foldl_cons, Option.some_bind]
  cases hstep : targetsStep opts init k with
  | none =>
    simp only [Option.none_bind]
    exact foldl_bind_none opts _
  | some a => simp only [Option.some_bind]

/-- Invariants of the target-size / base-level loop of
`generate_compaction_task`, folded downward from index `k - 1` to `0`,
given that it did not panic: indices `≥ k` are untouched, each processed
index obeys the next-level-driven recurrence, and the base-level
accumulator ends at the least processed index with a positive target
(`+ 1`), or keeps its initial value when all processed targets are zero. -/
theorem targetsLoop_spec (opts : LeveledCompactionOptions) :
    ∀ (k : Nat) (t : List Nat) (b : Nat) (r : List Nat × Nat),
      k ≤ t.length →
      (∀ j, j < k → t.getD j 0 = 0) →
      targetsLoop opts (t, b) k = some r →
      r.1.length = t.length ∧
      (∀ j, k ≤ j → r.1.getD j 0 = t.getD j 0) ∧
      (∀ j, j < k → r.1.getD j 0 =
        (if opts.base_level_size_mb * 1024 * 1024 < r.1.getD (j + 1) 0
          then r.1.getD (j + 1) 0 / opts.level_size_multiplier
          else 0)) ∧
      ((r.2 = b ∧ (∀ j, j < k → r.1.getD j 0 = 0)) ∨
        (∃ j, j < k ∧ r.2 = j + 1 ∧ 0 < r.1.getD j 0 ∧
          (∀ j', j' < j → r.1.getD j' 0 = 0))) := by
  intro k
  induction k with
  | zero =>
    intro t b r _ _ hr
    have hrtb : (t, b) = r := Option.some_inj.mp hr
    rw [← hrtb]
    refine ⟨rfl, fun j _ => rfl, fun j hj => absurd hj (Nat.not_lt_zero j), ?_⟩
    exact Or.inl ⟨rfl, fun j hj => absurd hj (Nat.not_lt_zero j)⟩
  | succ k ih =>
    intro t b r hk hzero hr
    rw [targetsLoop_succ] at hr
    rcases hstep : targetsStep opts (t, b) k with _ | a
    · rw [hstep] at hr
      exact absurd hr (by simp)
    rw [hstep] at hr
    simp only [Option.some_bind] at hr
    have hmne : ¬(opts.level_size_multiplier = 0) := by
      intro hq
      rw [targetsStep, if_pos hq] at hstep
      exact absurd hstep (by simp)
    rw [targetsStep, if_neg hmne] at hstep
    set t1 := (if opts.base_level_size_mb * 1024 * 1024 < t.getD (k + 1) 0
      then t.set k (t.getD (k + 1) 0 / opts.level_size_multiplier) else t)
      with ht1
    set b1 := (if 0 < t1.getD k 0 then k + 1 else b) with hb1
    have ha : a = (t1, b1) := (Option.some_inj.mp hstep).symm
    subst ha
    have ht1len : t1.length = t.length := by
      rw [ht1]; split <;> simp [List.length_set]
    have ht1ne : ∀ j, j ≠ k → t1.getD j 0 = t.getD j 0 := by
      intro j hj
      rw [ht1]
      split
      · exact getD_set_ne t k j _ (fun h => hj h.symm)
      · rfl
    have ht1k : t1.getD k 0 =
        (if opts.base_level_size_mb * 1024 * 1024 < t.getD (k + 1) 0
          then t.getD (k + 1) 0 / opts.level_size_multiplier else 0) := by
      rw [ht1]
      split
      · exact getD_set_self t k _ (Nat.lt_of_succ_le hk)
      · exact hzero k (Nat.lt_succ_self k)
    have hzero1 : ∀ j, j < k → t1.getD j 0 = 0 := by
      intro j hj
      rw [ht1ne j (Nat.ne_of_lt hj)]
      exact hzero j (Nat.lt_succ_of_lt hj)
    have hk1 : k ≤ t1.length := by
      rw [ht1len]; exact Nat.le_of_succ_le hk
    rcases ih t1 b1 r hk1 hzero1 hr with ⟨ihlen, ihhigh, ihrec, ihbase⟩
    refine ⟨by rw [ihlen, ht1len], ?_, ?_, ?_⟩
    · intro j hj
      rw [ihhigh j (Nat.le_of_succ_le hj), ht1ne j (Nat.ne_of_gt hj)]
    · intro j hj
      rcases Nat.lt_succ_iff_lt_or_eq.mp hj with hj' | hj'
      · exact ihrec j hj'
      · subst hj'
        rw [ihhigh j (le_refl j), ht1k]
        have hnext : r.1.getD (j + 1) 0 = t.getD (j + 1) 0 := by
          rw [ihhigh (j + 1) (Nat.le_succ j), ht1ne (j + 1) (Nat.succ_ne_self j)]
        rw [hnext]
    · rcases ihbase with ⟨hbeq, hallz⟩ | ⟨j, hjk, hbeq, hpos, hbelow⟩
      · by_cases hp : 0 < t1.getD k 0
        · refine Or.inr ⟨k, Nat.lt_succ_self k,
            hbeq.trans (by rw [hb1, if_pos hp]), ?_, hallz⟩
          rw [ihhigh k (le_refl k)]
          exact hp
        · refine Or.inl ⟨hbeq.trans (by rw [hb1, if_neg hp]), ?_⟩
          intro j hj
          rcases Nat.lt_succ_iff_lt_or_eq.mp hj with hj' | hj'
          · exact hallz j hj'
          · subst hj'
            rw [ihhigh j (le_refl j)]
            omega
      · exact Or.inr ⟨j, Nat.lt_succ_of_lt hjk, hbeq, hpos, hbelow⟩

/-- With a positive multiplier the loop never panics. -/
theorem targetsLoop_isSome (opts : LeveledCompactionOptions)
    (hmult : 0 < opts.level_size_multiplier) :
    ∀ (k : Nat) (t : List Nat) (b : Nat),
      ∃ r, targetsLoop opts (t, b) k = some r := by
  intro k
  induction k with
  | zero => intro t b; exact ⟨(t, b), rfl⟩
  | succ k ih =>
    intro t b
    rw [targetsLoop_succ]
    have hmne : ¬(opts.level_size_multiplier = 0) := by omega
    simp only [targetsStep, if_neg hmne, Option.some_bind]
    exact ih _ _

/-- With a zero multiplier the loop panics as soon as it runs: the
division `next_level_size / level_size_multiplier` is unconditional. -/
theorem targetsLoop_none (opts : LeveledCompactionOptions)
    (hmult : opts.level_size_multiplier = 0) (k : Nat) (t : List Nat)
    (b : Nat) (hk : 0 < k) :
    targetsLoop opts (t, b) k = none := by
  rcases k with _ | k
  · exact absurd hk (by simp)
  rw [targetsLoop_succ]
  simp only [targetsStep, if_pos hmult, Option.none_bind]

/-- `computeTargets` panics (division by zero) exactly as the source does:
whenever the multiplier is zero and the downward loop runs at least once
(`max_levels ≥ 2`). -/
theorem computeTargets_none (opts : LeveledCompactionOptions)
    (real : List Nat) (hmult : opts.level_size_multiplier = 0)
    (hm : 1 < opts.max_levels) :
    computeTargets opts real = none := by
  simp only [computeTargets]
  exact targetsLoop_none opts hmult _ _ _ (by omega)

/-- With a positive multiplier `computeTargets` never panics. -/
theorem computeTargets_isSome (opts : LeveledCompactionOptions)
    (real : List Nat) (hmult : 0 < opts.level_size_multiplier) :
    ∃ tb, computeTargets opts real = some tb := by
  simp only [computeTargets]
  exact targetsLoop_isSome opts hmult _ _ _

/-- Full characterization of a non-panicking `computeTargets` run: length,
bottom target, downward recurrence, base-level bounds, zero targets
strictly below the base level, and a positive target at the base level
whenever it is not the last level. -/
theorem computeTargets_spec (opts : LeveledCompactionOptions)
    (real : List Nat) (tb : List Nat × Nat) (hm : 0 < opts.max_levels)
    (htb : computeTargets opts real = some tb) :
    tb.1.length = opts.max_levels ∧
    tb.1.getD (opts.max_levels - 1) 0 =
      max (real.getD (opts.max_levels - 1) 0)
        (opts.base_level_size_mb * 1024 * 1024) ∧
    (∀ i, i + 1 < opts.max_levels →
      tb.1.getD i 0 =
        (if opts.base_level_size_mb * 1024 * 1024 < tb.1.getD (i + 1) 0
          then tb.1.getD (i + 1) 0 / opts.level_size_multiplier
          else 0)) ∧
    1 ≤ tb.2 ∧
    tb.2 ≤ opts.max_levels ∧
    (∀ j, j + 1 < tb.2 → tb.1.getD j 0 = 0) ∧
    (tb.2 ≠ opts.max_levels → 0 < tb.1.getD (tb.2 - 1) 0) := by
  set t0 := (List.replicate opts.max_levels 0).set (opts.max_levels - 1)
    ((real.getD (opts.max_levels - 1) 0).max
      (opts.base_level_size_mb * 1024 * 1024)) with ht0
  have hct : targetsLoop opts (t0, opts.max_levels) (opts.max_levels - 1) =
      some tb := htb
  have ht0len : t0.length = opts.max_levels := by
    rw [ht0, List.length_set, List.length_replicate]
  have ht0low : ∀ j, j < opts.max_levels - 1 → t0.getD j 0 = 0 := by
    intro j hj
    rw [ht0, getD_set_ne _ _ _ _ (Nat.ne_of_gt hj), getD_replicate_zero]
  have ht0top : t0.getD (opts.max_levels - 1) 0 =
      max (real.getD (opts.max_levels - 1) 0)
        (opts.base_level_size_mb * 1024 * 1024) := by
    rw [ht0, getD_set_self]
    rw [List.length_replicate]
    omega
  have hk : opts.max_levels - 1 ≤ t0.length := by rw [ht0len]; omega
  rcases targetsLoop_spec opts (opts.max_levels - 1) t0 opts.max_levels tb hk
    ht0low hct with ⟨hlen, hhigh, hrec, hbase⟩
  refine ⟨by rw [hlen, ht0len], ?_, ?_, ?_, ?_, ?_, ?_⟩
  · rw [hhigh (opts.max_levels - 1) (le_refl _), ht0top]
  · intro i hi
    exact hrec i (by omega)
  · rcases hbase with ⟨hbeq, _⟩ | ⟨j, _, hbeq, _, _⟩
    · omega
    · omega
  · rcases hbase with ⟨hbeq, _⟩ | ⟨j, hjk, hbeq, _, _⟩
    · omega
    · omega
  · intro j hj
    rcases hbase with ⟨hbeq, hallz⟩ | ⟨j0, hjk, hbeq, hpos, hbelow⟩
    · exact hallz j (by omega)
    · exact hbelow j (by omega)
  · intro hne
    rcases hbase with ⟨hbeq, hallz⟩ | ⟨j0, hjk, hbeq, hpos, hbelow⟩
    · exact absurd hbeq hne
    · have hj0 : tb.2 - 1 = j0 := by omega
      rw [hj0]
      exact hpos

/-- Claim C4 (amended): in `generate_compaction_task`'s target computation,
provided the configured level size multiplier is positive (a zero
multiplier panics at the unconditional integer division whenever
`max_levels ≥ 2`, see `computeTargets_none`): the bottom level's target
size is the maximum of its real size and the configured base level size;
each level above the bottom gets target `next_level_target / multiplier`,
but only when the **next** level's target exceeds the configured base
level size (otherwise its target is 0); and the base level is the
lowest-numbered level with a nonzero target when one exists, and
`max_levels` otherwise. -/
theorem target_sizes_spec (opts : LeveledCompactionOptions) (real : List Nat)
    (hm : 0 < opts.max_levels) (hmult : 0 < opts.level_size_multiplier) :
    ∃ tb, computeTargets opts real = some tb ∧
    tb.1.length = opts.max_levels ∧
    tb.1.getD (opts.max_levels - 1) 0 =
      max (real.getD (opts.max_levels - 1) 0)
        (opts.base_level_size_mb * 1024 * 1024) ∧
    (∀ i, i + 1 < opts.max_levels →
      tb.1.getD i 0 =
        (if opts.base_level_size_mb * 1024 * 1024 < tb.1.getD (i + 1) 0
          then tb.1.getD (i + 1) 0 / opts.level_size_multiplier
          else 0)) ∧
    1 ≤ tb.2 ∧
    tb.2 ≤ opts.max_levels ∧
    (∀ j, j + 1 < tb.2 → tb.1.getD j 0 = 0) ∧
    (tb.2 ≠ opts.max_levels → 0 < tb.1.getD (tb.2 - 1) 0) := by
  rcases computeTargets_isSome opts real hmult with ⟨tb, htb⟩
  exact ⟨tb, htb, computeTargets_spec opts real tb hm htb⟩

def optsTW : LeveledCompactionOptions := ⟨4, 2, 3, 1⟩

def realTW : List Nat := [0, 0, 9437184]

theorem target_sizes_spec_witness :
    0 < optsTW.max_levels ∧ 0 < optsTW.level_size_multiplier ∧
    computeTargets optsTW realTW ≠ none := by
  refine ⟨by decide, by decide, ?_⟩
  rcases target_sizes_spec optsTW realTW (by decide) (by decide) with
    ⟨tb, htb, _⟩
  rw [htb]
  simp

def optsC4 : LeveledCompactionOptions := ⟨4, 1, 2, 1⟩

def snapC4 : LsmStorageState :=
  ⟨[8], [(1, []), (2, [7])],
    fun id =>
      if id = 7 then some ⟨⟨[10], 0⟩, ⟨[20], 0⟩, 3145728⟩
      else if id = 8 then some ⟨⟨[10], 0⟩, ⟨[15], 0⟩, 100⟩
      else none⟩

def realC4 : List Nat := [0, 3145728]

theorem target_sizes_cex :
    realSizes optsC4 snapC4 = some realC4 ∧
    computeTargets optsC4 realC4 = some ([786432, 3145728], 1) ∧
    ¬((786432 : Nat) = 0 ∨
      optsC4.base_level_size_mb * 1024 * 1024 < (786432 : Nat)) ∧
    generate_compaction_task optsC4 snapC4 =
      some (some ⟨none, [8], 1, [], false⟩) := by decide

/-- Metadata of a table id under an already-checked-resolvable map. -/
def metaD (s : LsmStorageState) (id : Nat) : SstMeta :=
  (s.sstables id).getD ⟨⟨[], 0⟩, ⟨[], 0⟩, 0⟩

def lastKeyD (s : LsmStorageState) (id : Nat) : KeyT := (metaD s id).last_key

theorem mapM_first (s : LsmStorageState) :
    ∀ (l : List Nat), (∀ id ∈ l, (s.sstables id).isSome) →
      l.mapM (fun id => (s.sstables id).map SstMeta.first_key) =
        some (l.map (firstKeyD s)) := by
  intro l
  induction l with
  | nil => intro _; rfl
  | cons x xs ih =>
    intro h
    rcases Option.isSome_iff_exists.mp (h x (List.mem_cons_self x xs)) with ⟨m, hm⟩
    rw [List.mapM_cons, ih (fun id hid => h id (List.mem_cons_of_mem x hid))]
    simp [hm, firstKeyD, hm]

theorem mapM_last (s : LsmStorageState) :
    ∀ (l : List Nat), (∀ id ∈ l, (s.sstables id).isSome) →
      l.mapM (fun id => (s.sstables id).map SstMeta.last_key) =
        some (l.map (lastKeyD s)) := by
  intro l
  induction l with
  | nil => intro _; rfl
  | cons x xs ih =>
    intro h
    rcases Option.isSome_iff_exists.mp (h x (List.mem_cons_self x xs)) with ⟨m, hm⟩
    rw [List.mapM_cons, ih (fun id hid => h id (List.mem_cons_of_mem x hid))]
    simp [hm, lastKeyD, metaD, hm]

theorem mapM_pairs (s : LsmStorageState) :
    ∀ (l : List Nat), (∀ id ∈ l, (s.sstables id).isSome) →
      l.mapM (fun id => (s.sstables id).map (fun m => (id, m))) =
        some (l.map (fun id => (id, metaD s id))) := by
  intro l
  induction l with
  | nil => intro _; rfl
  | cons x xs ih =>
    intro h
    rcases Option.isSome_iff_exists.mp (h x (List.mem_cons_self x xs)) with ⟨m, hm⟩
    rw [List.mapM_cons, ih (fun id hid => h id (List.mem_cons_of_mem x hid))]
    simp [hm, metaD, hm]

theorem pairs_filter_map (s : LsmStorageState) (P : SstMeta → Bool) :
    ∀ (l : List Nat),
      ((l.map (fun id => (id, metaD s id))).filter (fun p => P p.2)).map Prod.fst =
        l.filter (fun id => P (metaD s id)) := by
  intro l
  induction l with
  | nil => rfl
  | cons x xs ih =>
    by_cases h : P (metaD s x) <;> simp [List.filter_cons, h, ih]

theorem keyMinFold_isSome {ks : List KeyT} (h : ks ≠ []) :
    ∃ m, keyMinFold ks = some m := by
  cases ks with
  | nil => exact absurd rfl h
  | cons k rest => exact ⟨_, rfl⟩

theorem keyMaxFold_isSome {ks : List KeyT} (h : ks ≠ []) :
    ∃ m, keyMaxFold ks = some m := by
  cases ks with
  | nil => exact absurd rfl h
  | cons k rest => exact ⟨_, rfl⟩

/-- `find_overlapping_ssts` on resolvable, non-empty sources and an
in-range level: the merge range is the semantic minimum of the sources'
first keys to the semantic maximum of their last keys, and the result is
the level's id list filtered by range intersection, in level order. -/
theorem find_overlapping_spec (s : LsmStorageState) (ids : List Nat) (lvl : Nat)
    (hne : ids ≠ [])
    (hmeta : ∀ id ∈ ids, (s.sstables id).isSome)
    (hmetaL : ∀ id ∈ (s.levels.getD (lvl - 1) (0, [])).2, (s.sstables id).isSome)
    (hlvl : 1 ≤ lvl) (hlen : lvl ≤ s.levels.length) :
    ∃ bk ek,
      bk ∈ ids.map (firstKeyD s) ∧ (∀ k ∈ ids.map (firstKeyD s), keyLE bk k) ∧
      ek ∈ ids.map (lastKeyD s) ∧ (∀ k ∈ ids.map (lastKeyD s), keyLE k ek) ∧
      find_overlapping_ssts s ids lvl =
        some ((s.levels.getD (lvl - 1) (0, [])).2.filter
          (fun id => decide (¬(keyLT (lastKeyD s id) bk ∨
            compareKey (firstKeyD s id) ek = Ordering.gt)))) := by
  have hne1 : ids.map (firstKeyD s) ≠ [] := by
    intro h
    exact hne (List.map_eq_nil_iff.mp h)
  have hne2 : ids.map (lastKeyD s) ≠ [] := by
    intro h
    exact hne (List.map_eq_nil_iff.mp h)
  rcases keyMinFold_isSome hne1 with ⟨bk, hbk⟩
  rcases keyMaxFold_isSome hne2 with ⟨ek, hek⟩
  rcases keyMinFold_spec hbk with ⟨hbkmem, hbkle⟩
  rcases keyMaxFold_spec hek with ⟨hekmem, hekle⟩
  refine ⟨bk, ek, hbkmem, hbkle, hekmem, hekle, ?_⟩
  have hguard : ¬(lvl = 0 ∨ s.levels.length < lvl) := by omega
  simp only [find_overlapping_ssts, mapM_first s ids hmeta,
    mapM_last s ids hmeta, hbk, hek, if_neg hguard,
    mapM_pairs s _ hmetaL]
  rw [pairs_filter_map s
    (fun m => decide (¬(keyLT m.last_key bk ∨ compareKey m.first_key ek = Ordering.gt)))]
  rfl

theorem sizesSum_isSome (s : LsmStorageState) :
    ∀ (l : List Nat), (∀ id ∈ l, (s.sstables id).isSome) →
      ∃ n, sizesSum s l = some n := by
  intro l
  induction l with
  | nil => intro _; exact ⟨0, rfl⟩
  | cons x xs ih =>
    intro h
    rcases Option.isSome_iff_exists.mp (h x (List.mem_cons_self x xs)) with ⟨m, hm⟩
    rcases ih (fun id hid => h id (List.mem_cons_of_mem x hid)) with ⟨t, ht⟩
    exact ⟨m.table_size + t, by simp [sizesSum, hm, ht]⟩

theorem levelSizesUpTo_isSome (s : LsmStorageState) :
    ∀ (n : Nat),
      (∀ i, i < n → ∀ id ∈ (s.levels.getD i (0, [])).2, (s.sstables id).isSome) →
      ∃ l, levelSizesUpTo s n = some l := by
  intro n
  induction n with
  | zero => intro _; exact ⟨[], rfl⟩
  | succ n ih =>
    intro h
    rcases ih (fun i hi => h i (Nat.lt_succ_of_lt hi)) with ⟨l, hl⟩
    rcases sizesSum_isSome s _ (h n (Nat.lt_succ_self n)) with ⟨v, hv⟩
    exact ⟨l ++ [v], by simp only [levelSizesUpTo, hl, hv]⟩

def optsC5 : LeveledCompactionOptions := ⟨4, 0, 1, 1⟩

def snapC5 : LsmStorageState := ⟨[], [(1, [])], fun _ => none⟩



/-- Claim C5 counterexample: with a zero trigger the L0 count (zero) meets
the trigger, but `generate_compaction_task` panics (`min().unwrap()` on the
empty L0 key list) instead of returning a task. -/
theorem l0_trigger_cex :
    optsC5.level0_file_num_compaction_trigger ≤ snapC5.l0_sstables.length ∧
    generate_compaction_task optsC5 snapC5 = none := by decide

/-- Claim C5 (amended): for every snapshot with at least one L0 table whose
L0 count meets the trigger (with a positive level size multiplier — a zero
multiplier panics in the target loop when `max_levels ≥ 2` — resolvable
metadata and in-range levels), `generate_compaction_task` returns a task
with `upper_level = None`, upper source ids = the entire L0 list,
`lower_level` = the base level, lower source ids = exactly the base-level
tables whose key range intersects `[min first key, max last key]` of the
L0 tables (excluded only if entirely below or entirely above), and
`is_lower_level_bottom_level` true iff the base level is the last level. -/
theorem l0_trigger_task_spec (opts : LeveledCompactionOptions)
    (s : LsmStorageState)
    (hm : 0 < opts.max_levels)
    (hmult : 0 < opts.level_size_multiplier)
    (hlen : opts.max_levels ≤ s.levels.length)
    (hl0 : s.l0_sstables ≠ [])
    (htrig : opts.level0_file_num_compaction_trigger ≤ s.l0_sstables.length)
    (hmeta0 : ∀ id ∈ s.l0_sstables, (s.sstables id).isSome)
    (hmetaAll : ∀ i, i < opts.max_levels →
      ∀ id ∈ (s.levels.getD i (0, [])).2, (s.sstables id).isSome) :
    ∃ real tb bk ek,
      realSizes opts s = some real ∧
      computeTargets opts real = some tb ∧
      bk ∈ s.l0_sstables.map (firstKeyD s) ∧
      (∀ k ∈ s.l0_sstables.map (firstKeyD s), keyLE bk k) ∧
      ek ∈ s.l0_sstables.map (lastKeyD s) ∧
      (∀ k ∈ s.l0_sstables.map (lastKeyD s), keyLE k ek) ∧
      generate_compaction_task opts s = some (some
        ⟨none, s.l0_sstables, tb.2,
          (s.levels.getD (tb.2 - 1) (0, [])).2.filter
            (fun id => decide (¬(keyLT (lastKeyD s id) bk ∨
              compareKey (firstKeyD s id) ek = Ordering.gt))),
          decide (tb.2 = opts.max_levels)⟩) := by
  rcases levelSizesUpTo_isSome s opts.max_levels hmetaAll with ⟨real, hreal⟩
  have hrealS : realSizes opts s = some real := hreal
  rcases computeTargets_isSome opts real hmult with ⟨tb, htb⟩
  rcases computeTargets_spec opts real tb hm htb with ⟨_, _, _, hb1, hb2, _, _⟩
  have hbm1 : tb.2 - 1 < opts.max_levels := by omega
  rcases find_overlapping_spec s s.l0_sstables tb.2
    hl0 hmeta0 (hmetaAll _ hbm1) hb1 (le_trans hb2 hlen) with
    ⟨bk, ek, hbkm, hbkle, hekm, hekle, hov⟩
  refine ⟨real, tb, bk, ek, hrealS, htb, hbkm, hbkle, hekm, hekle, ?_⟩
  have hguard : ¬(opts.max_levels = 0 ∨ s.levels.length < opts.max_levels) := by
    omega
  simp only [generate_compaction_task, if_neg hguard, hrealS, htb,
    if_pos htrig, hov]

def optsLW : LeveledCompactionOptions := ⟨4, 1, 2, 1⟩

def snapLW : LsmStorageState :=
  ⟨[5], [(1, []), (2, [])],
    fun id => if id = 5 then some ⟨⟨[10], 0⟩, ⟨[30], 0⟩, 100⟩ else none⟩

theorem l0_trigger_task_spec_witness :
    optsLW.level0_file_num_compaction_trigger ≤ snapLW.l0_sstables.length ∧
    generate_compaction_task optsLW snapLW ≠ none := by
  refine ⟨by decide, ?_⟩
  rcases l0_trigger_task_spec optsLW snapLW (by decide) (by decide)
    (by decide) (by decide) (by decide)
    (by
      intro id hid
      have hid5 : id ∈ [5] := hid
      rw [List.mem_singleton] at hid5
      subst hid5
      decide)
    (by
      intro i hi id hid
      have hi2 : i < 2 := hi
      have h2 : (snapLW.levels.getD i (0, [])).2 = [] := by
        interval_cases i <;> rfl
      rw [h2] at hid
      exact absurd hid (List.not_mem_nil id)) with
    ⟨real, tb, bk, ek, _, _, _, _, _, _, hgen⟩
  rw [hgen]
  simp

def snapMZ : LsmStorageState :=
  ⟨[5], [(1, []), (2, [])],
    fun id => if id = 5 then some ⟨⟨[1], 0⟩, ⟨[2], 0⟩, 10⟩ else none⟩

/-- A zero multiplier panics before the L0-trigger branch as well: even
with a resolvable L0 table meeting the trigger, the target loop's division
comes first. -/
theorem l0_trigger_mult_zero_panics :
    generate_compaction_task ⟨0, 1, 2, 0⟩ snapMZ = none := by decide

def optsPW : LeveledCompactionOptions := ⟨2, 10, 2, 1⟩

def snapPW : LsmStorageState :=
  ⟨[], [(1, [11]), (2, [12])],
    fun id =>
      if id = 11 then some ⟨⟨[5], 0⟩, ⟨[9], 0⟩, 4194304⟩
      else if id = 12 then some ⟨⟨[6], 0⟩, ⟨[8], 0⟩, 2097152⟩
      else none⟩

/-- Claim C9: every task emitted by the size-ratio priority branch (upper
level `Some L`) has its upper level strictly above the bottom
(`L < max_levels`, since the bottom level's target is at least its real
size) and its lower level `L + 1` at most `max_levels`, keeping the
lower-level index within the snapshot's levels. -/
theorem priority_upper_below_bottom (opts : LeveledCompactionOptions)
    (s : LsmStorageState) (t : LeveledCompactionTask) (L : Nat)
    (h : generate_compaction_task opts s = some (some t))
    (hu : t.upper_level = some L) :
    L < opts.max_levels ∧ t.lower_level = L + 1 ∧
      t.lower_level ≤ opts.max_levels := by
  simp only [generate_compaction_task] at h
  split at h
  · exact absurd h (by simp)
  next hg =>
  split at h
  · exact absurd h (by simp)
  next real hreal =>
  split at h
  · exact absurd h (by simp)
  next tb htb =>
  split at h
  · split at h
    · exact absurd h (by simp)
    next overlap hov =>
    rw [← Option.some_inj.mp (Option.some_inj.mp h)] at hu
    exact absurd hu (by simp)
  next htrig =>
  split at h
  · exact absurd h (by simp)
  next pl hpl =>
  split at h
  · exact absurd h (by simp)
  next sel hsel =>
  split at h
  · exact absurd h (by simp)
  next overlap hov =>
  have ht := Option.some_inj.mp (Option.some_inj.mp h)
  have hup : t.upper_level = some pl.2 := by rw [← ht]
  have hL : pl.2 = L := by
    rw [hup] at hu
    exact Option.some_inj.mp hu
  have hlow : t.lower_level = pl.2 + 1 := by rw [← ht]
  have hm : 0 < opts.max_levels := by omega
  rcases hsort : sortBy prioGE ((List.range opts.max_levels).filterMap
      (fun level =>
        if tb.1.getD level 0 < real.getD level 0 then
          some (ratioQ (real.getD level 0) (tb.1.getD level 0), level + 1)
        else none)) with _ | ⟨x, rest⟩
  · rw [hsort] at hpl
    exact absurd hpl (by simp)
  rw [hsort, List.head?_cons] at hpl
  have hplx : pl = x := (Option.some_inj.mp hpl).symm
  have hxmem : x ∈ (List.range opts.max_levels).filterMap
      (fun level =>
        if tb.1.getD level 0 < real.getD level 0 then
          some (ratioQ (real.getD level 0) (tb.1.getD level 0), level + 1)
        else none) := by
    have := (sortBy_perm prioGE _).mem_iff.mp (hsort ▸ List.mem_cons_self x rest)
    exact this
  rcases List.mem_filterMap.mp hxmem with ⟨lv1, hlv1r, hf⟩
  have hlv1 : lv1 < opts.max_levels := List.mem_range.mp hlv1r
  by_cases hcond : tb.1.getD lv1 0 < real.getD lv1 0
  swap
  · rw [if_neg hcond] at hf
    exact absurd hf (by simp)
  rw [if_pos hcond] at hf
  have hx2 : x.2 = lv1 + 1 := by
    rw [← Option.some_inj.mp hf]
  have hbot : real.getD (opts.max_levels - 1) 0 ≤
      tb.1.getD (opts.max_levels - 1) 0 := by
    rw [(computeTargets_spec opts real tb hm htb).2.1]
    exact le_max_left _ _
  have hlv1ne : lv1 ≠ opts.max_levels - 1 := by
    intro hq
    rw [hq] at hcond
    exact absurd hcond (not_lt.mpr hbot)
  have hLval : L = lv1 + 1 := by rw [← hL, hplx, hx2]
  refine ⟨by omega, ?_, ?_⟩
  · rw [hlow, hplx, hx2, hLval]
  · rw [hlow, hplx, hx2]
    omega

theorem priority_upper_below_bottom_witness :
    generate_compaction_task optsPW snapPW =
      some (some ⟨some 1, [11], 2, [12], true⟩) ∧
    1 < optsPW.max_levels ∧ (2 : Nat) = 1 + 1 ∧ 2 ≤ optsPW.max_levels := by
  have h : generate_compaction_task optsPW snapPW =
      some (some ⟨some 1, [11], 2, [12], true⟩) := by decide
  have hr := priority_upper_below_bottom optsPW snapPW
    ⟨some 1, [11], 2, [12], true⟩ 1 h rfl
  exact ⟨h, hr.1, hr.2.1, hr.2.2⟩

theorem removeIds_fst_eq_filter :
    ∀ (l st : List Nat), l.Nodup →
      (removeIds l st).1 = l.filter (fun x => decide (x ∉ st)) := by
  intro l
  induction l with
  | nil => intro st _; rfl
  | cons x xs ih =>
    intro st hl
    rcases List.nodup_cons.mp hl with ⟨hx, hxs⟩
    by_cases h : x ∈ st
    · simp only [removeIds, if_pos h]
      rw [ih _ hxs, List.filter_cons, if_neg (by simpa using h)]
      apply List.filter_congr
      intro y hy
      have hyx : y ≠ x := fun hq => hx (hq ▸ hy)
      simp [List.mem_erase_of_ne hyx]
    · simp only [removeIds, if_neg h]
      rw [ih _ hxs, List.filter_cons, if_pos (by simpa using h)]

theorem filter_not_mem_dedup (l st : List Nat) :
    l.filter (fun x => decide (x ∉ st.dedup)) =
      l.filter (fun x => decide (x ∉ st)) := by
  apply List.filter_congr
  intro y _
  simp [List.mem_dedup]

theorem getD_set_self' {α : Type} (l : List α) (i : Nat) (a d : α)
    (h : i < l.length) : (l.set i a).getD i d = a := by
  simp [List.getD_eq_getElem?_getD, List.getElem?_set_self h]

theorem getD_set_ne' {α : Type} (l : List α) (i j : Nat) (a d : α)
    (h : i ≠ j) : (l.set i a).getD j d = l.getD j d := by
  simp [List.getD_eq_getElem?_getD, List.getElem?_set_ne h]

/-- Inversion of the upper-stage removal of `apply_compaction_result`. -/
theorem applyUpper_spec (s : LsmStorageState) (task : LeveledCompactionTask)
    (s1 : LsmStorageState)
    (h : applyUpper s task = some s1)
    (hn0 : s.l0_sstables.Nodup)
    (hnlev : ∀ i, ((s.levels.getD i (0, [])).2).Nodup) :
    s1.sstables = s.sstables ∧
    (∀ u, task.upper_level = some u → 1 ≤ u ∧ u ≤ s.levels.length ∧
      s1.l0_sstables = s.l0_sstables ∧
      s1.levels = s.levels.set (u - 1) ((s.levels.getD (u - 1) (0, [])).1,
        (s.levels.getD (u - 1) (0, [])).2.filter
          (fun x => decide (x ∉ task.upper_level_sst_ids)))) ∧
    (task.upper_level = none → s1.levels = s.levels ∧
      s1.l0_sstables = s.l0_sstables.filter
        (fun x => decide (x ∉ task.upper_level_sst_ids))) := by
  simp only [applyUpper] at h
  split at h
  next u hu =>
    split at h
    · exact absurd h (by simp)
    next hg =>
    split at h
    swap
    · exact absurd h (by simp)
    next hempty =>
    have hs1 := Option.some_inj.mp h
    rw [← hs1]
    refine ⟨rfl, ?_, ?_⟩
    · intro u' hu'
      rw [hu] at hu'
      have huu : u = u' := Option.some_inj.mp hu'
      subst huu
      refine ⟨by omega, by omega, rfl, ?_⟩
      simp only
      rw [removeIds_fst_eq_filter _ _ (hnlev (u - 1)), filter_not_mem_dedup]
    · intro hu'
      rw [hu] at hu'
      exact absurd hu' (by simp)
  next hu =>
    split at h
    swap
    · exact absurd h (by simp)
    next hempty =>
    have hs1 := Option.some_inj.mp h
    rw [← hs1]
    refine ⟨rfl, ?_, ?_⟩
    · intro u' hu'
      rw [hu] at hu'
      exact absurd hu' (by simp)
    · intro _
      refine ⟨rfl, ?_⟩
      simp only
      rw [removeIds_fst_eq_filter _ _ hn0, filter_not_mem_dedup]

/-- Claim C7: on success (asserts pass), `apply_compaction_result` returns
`removed_ids` equal to exactly the task's upper source ids followed by its
lower source ids; the upper source ids are removed from L0 (when
`upper_level` is `None`) or from the named upper level's list; and the
lower level's list equals (old lower list minus lower source ids) with the
output ids appended — sorted by each table's first key when `in_recovery`
is false (stated as: a permutation of that list, sorted by first key), left
exactly in that order when `in_recovery` is true.  Duplicate-free id lists
and a task whose upper level differs from its lower level are the
snapshot/task well-formedness assumptions. -/
theorem apply_compaction_result_spec (s : LsmStorageState)
    (task : LeveledCompactionTask) (output : List Nat) (rec : Bool)
    (s' : LsmStorageState) (removed : List Nat)
    (h : apply_compaction_result s task output rec = some (s', removed))
    (hn0 : s.l0_sstables.Nodup)
    (hnlev : ∀ i, ((s.levels.getD i (0, [])).2).Nodup)
    (hul : task.upper_level ≠ some task.lower_level) :
    removed = task.upper_level_sst_ids ++ task.lower_level_sst_ids ∧
    1 ≤ task.lower_level ∧ task.lower_level ≤ s.levels.length ∧
    (∀ u, task.upper_level = some u →
      (s'.levels.getD (u - 1) (0, [])).2 =
        (s.levels.getD (u - 1) (0, [])).2.filter
          (fun x => decide (x ∉ task.upper_level_sst_ids)) ∧
      s'.l0_sstables = s.l0_sstables) ∧
    (task.upper_level = none →
      s'.l0_sstables = s.l0_sstables.filter
        (fun x => decide (x ∉ task.upper_level_sst_ids))) ∧
    (rec = true →
      (s'.levels.getD (task.lower_level - 1) (0, [])).2 =
        (s.levels.getD (task.lower_level - 1) (0, [])).2.filter
          (fun x => decide (x ∉ task.lower_level_sst_ids)) ++ output) ∧
    (rec = false →
      ((s'.levels.getD (task.lower_level - 1) (0, [])).2).Perm
        ((s.levels.getD (task.lower_level - 1) (0, [])).2.filter
          (fun x => decide (x ∉ task.lower_level_sst_ids)) ++ output) ∧
      List.Pairwise (fun a b => keyLE (firstKeyD s a) (firstKeyD s b))
        ((s'.levels.getD (task.lower_level - 1) (0, [])).2)) := by
  simp only [apply_compaction_result] at h
  split at h
  · exact absurd h (by simp)
  next s1 hs1 =>
  split at h
  · exact absurd h (by simp)
  next hg =>
  split at h
  swap
  · exact absurd h (by simp)
  next hempty =>
  rcases applyUpper_spec s task s1 hs1 hn0 hnlev with ⟨hsst, hupSome, hupNone⟩
  have hs1len : s1.levels.length = s.levels.length := by
    cases htu : task.upper_level with
    | some u =>
      rw [(hupSome u htu).2.2.2, List.length_set]
    | none =>
      rw [(hupNone htu).1]
  have hlowlt : task.lower_level - 1 < s1.levels.length := by
    rw [hs1len]; omega
  have hlow_eq : (s1.levels.getD (task.lower_level - 1) (0, [])).2 =
      (s.levels.getD (task.lower_level - 1) (0, [])).2 := by
    cases htu : task.upper_level with
    | some u =>
      rcases hupSome u htu with ⟨hu1, _, _, hlev⟩
      have hne : u - 1 ≠ task.lower_level - 1 := by
        have : u ≠ task.lower_level := fun hq => hul (by rw [htu, hq])
        omega
      rw [hlev, getD_set_ne' _ _ _ _ _ hne]
    | none =>
      rw [(hupNone htu).1]
  have hnlow : ((s1.levels.getD (task.lower_level - 1) (0, [])).2).Nodup := by
    rw [hlow_eq]; exact hnlev _
  have hremono : (removeIds (s1.levels.getD (task.lower_level - 1) (0, [])).2
      task.lower_level_sst_ids.dedup).1 =
      (s.levels.getD (task.lower_level - 1) (0, [])).2.filter
        (fun x => decide (x ∉ task.lower_level_sst_ids)) := by
    rw [removeIds_fst_eq_filter _ _ hnlow, filter_not_mem_dedup, hlow_eq]
  have hupper_out : ∀ (lv : List Nat),
      (∀ u, task.upper_level = some u →
        (({ s1 with levels := (s1.levels.set (task.lower_level - 1)
          ((s1.levels.getD (task.lower_level - 1) (0, [])).1, lv)) }
            : LsmStorageState).levels.getD (u - 1) (0, [])).2 =
          (s.levels.getD (u - 1) (0, [])).2.filter
            (fun x => decide (x ∉ task.upper_level_sst_ids)) ∧
        ({ s1 with levels := (s1.levels.set (task.lower_level - 1)
          ((s1.levels.getD (task.lower_level - 1) (0, [])).1, lv)) }
            : LsmStorageState).l0_sstables = s.l0_sstables) ∧
      (task.upper_level = none →
        ({ s1 with levels := (s1.levels.set (task.lower_level - 1)
          ((s1.levels.getD (task.lower_level - 1) (0, [])).1, lv)) }
            : LsmStorageState).l0_sstables = s.l0_sstables.filter
          (fun x => decide (x ∉ task.upper_level_sst_ids))) := by
    intro lv
    constructor
    · intro u htu
      rcases hupSome u htu with ⟨hu1, hu2, hl0eq, hlev⟩
      have hne : task.lower_level - 1 ≠ u - 1 := by
        have : u ≠ task.lower_level := fun hq => hul (by rw [htu, hq])
        omega
      constructor
      · simp only
        rw [getD_set_ne' _ _ _ _ _ hne, hlev,
          getD_set_self' _ _ _ _ (by omega)]
      · simp only
        exact hl0eq
    · intro htu
      simp only
      exact (hupNone htu).2
  have hlow_new : ∀ (lv : List Nat),
      (({ s1 with levels := (s1.levels.set (task.lower_level - 1)
          ((s1.levels.getD (task.lower_level - 1) (0, [])).1, lv)) }
        : LsmStorageState).levels.getD (task.lower_level - 1) (0, [])).2 = lv := by
    intro lv
    simp only
    rw [getD_set_self' _ _ _ _ hlowlt]
  split at h
  next hrec =>
    have hs' : s' = { s1 with levels := (s1.levels.set (task.lower_level - 1)
        ((s1.levels.getD (task.lower_level - 1) (0, [])).1,
          (removeIds (s1.levels.getD (task.lower_level - 1) (0, [])).2
            task.lower_level_sst_ids.dedup).1 ++ output)) } :=
      (congrArg Prod.fst (Option.some_inj.mp h)).symm
    have hrem : removed = task.upper_level_sst_ids ++ task.lower_level_sst_ids :=
      (congrArg Prod.snd (Option.some_inj.mp h)).symm
    subst hs'
    refine ⟨hrem, by omega, by omega, (hupper_out _).1, (hupper_out _).2, ?_, ?_⟩
    · intro _
      rw [hlow_new, hremono]
    · intro hfalse
      rw [hrec] at hfalse
      exact absurd hfalse (by simp)
  next hrec =>
  split at h
  swap
  · exact absurd h (by simp)
  next hall =>
  have hs' : s' = { s1 with levels := (s1.levels.set (task.lower_level - 1)
      ((s1.levels.getD (task.lower_level - 1) (0, [])).1,
        sortBy (fun x y => keyLEb (firstKeyD s x) (firstKeyD s y))
          ((removeIds (s1.levels.getD (task.lower_level - 1) (0, [])).2
            task.lower_level_sst_ids.dedup).1 ++ output))) } :=
    (congrArg Prod.fst (Option.some_inj.mp h)).symm
  have hrem : removed = task.upper_level_sst_ids ++ task.lower_level_sst_ids :=
    (congrArg Prod.snd (Option.some_inj.mp h)).symm
  subst hs'
  have htot : ∀ a b : Nat, keyLEb (firstKeyD s a) (firstKeyD s b) = true ∨
      keyLEb (firstKeyD s b) (firstKeyD s a) = true := by
    intro a b
    simp only [keyLEb, decide_eq_true_eq]
    exact keyLE_total _ _
  have htrans : ∀ a b c : Nat, keyLEb (firstKeyD s a) (firstKeyD s b) = true →
      keyLEb (firstKeyD s b) (firstKeyD s c) = true →
      keyLEb (firstKeyD s a) (firstKeyD s c) = true := by
    intro a b c hab hbc
    simp only [keyLEb, decide_eq_true_eq] at hab hbc ⊢
    exact keyLE_trans hab hbc
  refine ⟨hrem, by omega, by omega, (hupper_out _).1, (hupper_out _).2, ?_, ?_⟩
  · intro htrue
    exact absurd htrue hrec
  · intro _
    rw [hlow_new]
    constructor
    · rw [← hremono]
      exact sortBy_perm _ _
    · have hpw := sortBy_pairwise htot htrans
        ((removeIds (s1.levels.getD (task.lower_level - 1) (0, [])).2
          task.lower_level_sst_ids.dedup).1 ++ output)
      refine hpw.imp ?_
      intro a b hab
      simpa [keyLEb] using hab

/-- Frame inversion of the upper-stage removal, with no well-formedness
assumptions. -/
theorem applyUpper_frame (s : LsmStorageState) (task : LeveledCompactionTask)
    (s1 : LsmStorageState) (h : applyUpper s task = some s1) :
    s1.sstables = s.sstables ∧
    s1.levels.length = s.levels.length ∧
    (∀ u, task.upper_level = some u → s1.l0_sstables = s.l0_sstables ∧
      ∀ i, i ≠ u - 1 → s1.levels.getD i (0, []) = s.levels.getD i (0, [])) ∧
    (task.upper_level = none → s1.levels = s.levels) := by
  simp only [applyUpper] at h
  split at h
  next u hu =>
    split at h
    · exact absurd h (by simp)
    next hg =>
    split at h
    swap
    · exact absurd h (by simp)
    next hempty =>
    rw [← Option.some_inj.mp h]
    refine ⟨rfl, by simp [List.length_set], ?_, ?_⟩
    · intro u' hu'
      rw [hu] at hu'
      have huu : u = u' := Option.some_inj.mp hu'
      subst huu
      refine ⟨rfl, ?_⟩
      intro i hi
      simp only
      rw [getD_set_ne' _ _ _ _ _ (fun hq => hi hq.symm)]
    · intro hu'
      rw [hu] at hu'
      exact absurd hu' (by simp)
  next hu =>
    split at h
    swap
    · exact absurd h (by simp)
    next hempty =>
    rw [← Option.some_inj.mp h]
    refine ⟨rfl, rfl, ?_, fun _ => rfl⟩
    intro u' hu'
    rw [hu] at hu'
    exact absurd hu' (by simp)

/-- Claim C10: `apply_compaction_result` leaves the caller's snapshot value
untouched (the model is a pure function of it) and the snapshot it returns
differs from the input only at the task's upper location and the lower
level's list: the table-metadata mapping, the number of levels, the L0
list when `upper_level` is `Some`, and every other level's entry are
unchanged. -/
theorem apply_compaction_frame (s : LsmStorageState)
    (task : LeveledCompactionTask) (output : List Nat) (rec : Bool)
    (s' : LsmStorageState) (removed : List Nat)
    (h : apply_compaction_result s task output rec = some (s', removed)) :
    s'.sstables = s.sstables ∧
    s'.levels.length = s.levels.length ∧
    (∀ u, task.upper_level = some u → s'.l0_sstables = s.l0_sstables) ∧
    (∀ i, i ≠ task.lower_level - 1 →
      (∀ u, task.upper_level = some u → i ≠ u - 1) →
      s'.levels.getD i (0, []) = s.levels.getD i (0, [])) := by
  simp only [apply_compaction_result] at h
  split at h
  · exact absurd h (by simp)
  next s1 hs1 =>
  split at h
  · exact absurd h (by simp)
  next hg =>
  split at h
  swap
  · exact absurd h (by simp)
  next hempty =>
  rcases applyUpper_frame s task s1 hs1 with ⟨hsst, hlen, hupSome, hupNone⟩
  have hframe : ∀ (lv : List Nat),
      (({ s1 with levels := (s1.levels.set (task.lower_level - 1)
          ((s1.levels.getD (task.lower_level - 1) (0, [])).1, lv)) }
        : LsmStorageState).sstables = s.sstables) ∧
      (({ s1 with levels := (s1.levels.set (task.lower_level - 1)
          ((s1.levels.getD (task.lower_level - 1) (0, [])).1, lv)) }
        : LsmStorageState).levels.length = s.levels.length) ∧
      (∀ u, task.upper_level = some u →
        ({ s1 with levels := (s1.levels.set (task.lower_level - 1)
            ((s1.levels.getD (task.lower_level - 1) (0, [])).1, lv)) }
          : LsmStorageState).l0_sstables = s.l0_sstables) ∧
      (∀ i, i ≠ task.lower_level - 1 →
        (∀ u, task.upper_level = some u → i ≠ u - 1) →
        ({ s1 with levels := (s1.levels.set (task.lower_level - 1)
            ((s1.levels.getD (task.lower_level - 1) (0, [])).1, lv)) }
          : LsmStorageState).levels.getD i (0, []) =
          s.levels.getD i (0, [])) := by
    intro lv
    refine ⟨hsst, by simp [List.length_set, hlen], ?_, ?_⟩
    · intro u hu
      exact (hupSome u hu).1
    · intro i hi hiu
      simp only
      rw [getD_set_ne' _ _ _ _ _ (fun hq => hi hq.symm)]
      cases htu : task.upper_level with
      | some u => exact (hupSome u htu).2 i (hiu u htu)
      | none => rw [(hupNone htu)]
  split at h
  next hrec =>
    have hs' : s' = { s1 with levels := (s1.levels.set (task.lower_level - 1)
        ((s1.levels.getD (task.lower_level - 1) (0, [])).1,
          (removeIds (s1.levels.getD (task.lower_level - 1) (0, [])).2
            task.lower_level_sst_ids.dedup).1 ++ output)) } :=
      (congrArg Prod.fst (Option.some_inj.mp h)).symm
    subst hs'
    exact hframe _
  next hrec =>
  split at h
  swap
  · exact absurd h (by simp)
  next hall =>
  have hs' : s' = { s1 with levels := (s1.levels.set (task.lower_level - 1)
      ((s1.levels.getD (task.lower_level - 1) (0, [])).1,
        sortBy (fun x y => keyLEb (firstKeyD s x) (firstKeyD s y))
          ((removeIds (s1.levels.getD (task.lower_level - 1) (0, [])).2
            task.lower_level_sst_ids.dedup).1 ++ output))) } :=
    (congrArg Prod.fst (Option.some_inj.mp h)).symm
  subst hs'
  exact hframe _

def snapAp : LsmStorageState :=
  ⟨[1], [(1, [2]), (2, [3, 4])],
    fun id =>
      if id = 2 then some ⟨⟨[3], 0⟩, ⟨[4], 0⟩, 10⟩
      else if id = 3 then some ⟨⟨[2], 0⟩, ⟨[3], 0⟩, 10⟩
      else if id = 4 then some ⟨⟨[5], 0⟩, ⟨[6], 0⟩, 10⟩
      else if id = 9 then some ⟨⟨[1], 0⟩, ⟨[2], 0⟩, 10⟩
      else none⟩

def taskAp : LeveledCompactionTask := ⟨some 1, [2], 2, [3], false⟩

def snapAp2 : LsmStorageState := ⟨[1], [(1, []), (2, [9, 4])], snapAp.sstables⟩

theorem apply_compaction_result_spec_witness :
    apply_compaction_result snapAp taskAp [9] false = some (snapAp2, [2, 3]) ∧
    ([2, 3] : List Nat) =
      taskAp.upper_level_sst_ids ++ taskAp.lower_level_sst_ids := by
  have h : apply_compaction_result snapAp taskAp [9] false =
      some (snapAp2, [2, 3]) := by rfl
  have hr := apply_compaction_result_spec snapAp taskAp [9] false snapAp2 [2, 3] h
    (by decide)
    (by
      intro i
      rcases i with _ | _ | i
      · decide
      · decide
      · have hout : snapAp.levels.getD (i + 2) (0, []) = (0, []) := by
          rw [List.getD_eq_getElem?_getD,
            List.getElem?_eq_none (by simp [snapAp])]
          rfl
        rw [hout]
        exact List.nodup_nil)
    (by decide)
  exact ⟨h, hr.1⟩

theorem apply_compaction_frame_witness :
    apply_compaction_result snapAp taskAp [9] false = some (snapAp2, [2, 3]) ∧
    snapAp2.sstables = snapAp.sstables ∧
    snapAp2.l0_sstables = snapAp.l0_sstables := by
  have h : apply_compaction_result snapAp taskAp [9] false =
      some (snapAp2, [2, 3]) := by rfl
  have hr := apply_compaction_frame snapAp taskAp [9] false snapAp2 [2, 3] h
  exact ⟨h, hr.1, hr.2.2.1 1 rfl⟩
